import Mathlib

/-!
Shallow embedding of the HCA-JSON → MAGE-TAB mapping engine
(`src/utils.py`, `src/hca2mtab.py`) and proofs about its behaviour.

JSON values are modelled by `HVal` (strings stand in for all scalar
leaves; numbers and booleans do not matter to any property below).
Python dicts are association lists with distinct keys; `List.lookup`
models key access. Fallible code paths (exceptions) are modelled with
`Option` / `Except`.
-/

namespace Hca2Mtab

/-! ### Kernel-reducible string primitives

Python's `str.split`, `str.replace`, `int(...)` and substring search are
modelled over `List Char` by structural recursion, so that concrete
instances evaluate inside the kernel. -/

/-- `str.split(sep)` for a nonempty separator, over char lists; `acc`
holds the (reversed) current piece. Each step consumes at least one
character, so `fuel` (instantiated with the input's length) makes the
recursion structural without changing the result. -/
def split_on_chars (sep : List Char) : Nat → List Char → List Char → List (List Char)
  | _, [], acc => [acc.reverse]
  | 0, l, acc => [acc.reverse ++ l]
  | fuel + 1, c :: rest, acc =>
    if sep.isPrefixOf (c :: rest) ∧ sep ≠ [] then
      acc.reverse :: split_on_chars sep fuel (List.drop (sep.length - 1) rest) []
    else split_on_chars sep fuel rest (c :: acc)

/-- Python's `s.split(sep)` (for the nonempty literal separators the
engine uses: `","`, `"."`, `"/"`). -/
def str_split (s sep : String) : List String :=
  (split_on_chars sep.toList s.toList.length s.toList []).map String.mk

/-- Replace every (leftmost, non-overlapping) occurrence of `pat`;
`fuel` as in `split_on_chars`. -/
def replace_chars (pat rep : List Char) : Nat → List Char → List Char
  | _, [] => []
  | 0, l => l
  | fuel + 1, c :: rest =>
    if pat.isPrefixOf (c :: rest) ∧ pat ≠ [] then
      rep ++ replace_chars pat rep fuel (List.drop (pat.length - 1) rest)
    else c :: replace_chars pat rep fuel rest

/-- Python's `s.replace(pat, rep)` / `re.sub` with a literal pattern. -/
def str_replace (s pat rep : String) : String :=
  String.mk (replace_chars pat.toList rep.toList s.toList.length s.toList)

/-- Substring occurrence test (`re.search` with a literal pattern). -/
def contains_chars (pat : List Char) : List Char → Bool
  | [] => pat.isEmpty
  | c :: rest => pat.isPrefixOf (c :: rest) || contains_chars pat rest

/-- `int(version.replace('.', ''))` for the digits-and-dots version
strings the engine compares (Python raises on other input). -/
def strip_dots_to_nat (v : String) : Nat :=
  v.toList.foldl (fun n c => if c = '.' then n else n * 10 + (c.toNat - 48)) 0

/-- A JSON-like value: a scalar leaf, a list, or a nested mapping.
`utils.get_hca_value_for_path` only distinguishes "dict" from "not a
dict", so scalars are collapsed into `str`. -/
inductive HVal where
  | str : String → HVal
  | arr : List HVal → HVal
  | dict : List (String × HVal) → HVal

/-- The subset of the YAML configuration (`hca2mtab.yml`) the engine
reads: sentinel tokens, the schema-version field name, the
controlled-vocabulary translation table (`cv_translate`), and the
column-adjacency table (`sdrf_colkey_after_colvalues`). -/
structure Config where
  notfound : String
  curate : String
  hca_schema_version_field_name : String
  cv_translate : List (String × List (String × String))
  sdrf_colkey_after_colvalues : List (String × List String)

/-- `utils.get_magetab_equivalent`: translate `hca_value` to its MAGE-TAB
equivalent specific to `magetab_label`; fall back to the `default` entry
when present, otherwise return the value unchanged. `none` models
Python's `None` (the initial `leaf = None`). -/
def get_magetab_equivalent (magetab_label : String) (hca_value : Option HVal)
    (config : Config) : Option HVal :=
  match config.cv_translate.lookup magetab_label with
  | none => hca_value
  | some tbl =>
    match hca_value with
    | some (HVal.str s) =>
      match tbl.lookup s with
      | some w => some (HVal.str w)
      | none =>
        match tbl.lookup "default" with
        | some d => some (HVal.str d)
        | none => hca_value
    | _ =>
      match tbl.lookup "default" with
      | some d => some (HVal.str d)
      | none => hca_value

/-- The traversal loop of `utils.get_hca_value_for_path`: consume path
keys in order; on a nested dict descend; on a leaf record it in `leaf`
and keep going (the Python loop does not break there); on a missing key
return the NOTFOUND sentinel at once. -/
def traverse_path (nf : String) : List String → List (String × HVal) → Option HVal → Option HVal
  | [], _, leaf => leaf
  | key :: rest, data, leaf =>
    match data.lookup key with
    | none => some (HVal.str nf)
    | some (HVal.dict d) => traverse_path nf rest d leaf
    | some v => traverse_path nf rest data (some v)

/-- `utils.get_hca_value_for_path` (minus logging): traverse, then pass
the result through the controlled-vocabulary translation. -/
def get_hca_value_for_path (config : Config) (magetab_label : String)
    (hca_schema_path : List String) (hca_data_structure : List (String × HVal)) : Option HVal :=
  get_magetab_equivalent magetab_label
    (traverse_path config.notfound hca_schema_path hca_data_structure none) config

/-- Python's `value == get_val(config, 'notfound')` test: true exactly
when the value is the given sentinel string. -/
def opt_is_str : Option HVal → String → Bool
  | some (HVal.str s), t => s == t
  | _, _ => false

/-- `utils.hca_versions_in_asc_order`: strip the dots and compare as
integers (true iff `version1` ≤ `version2`). -/
def hca_versions_in_asc_order (version1 version2 : String) : Bool :=
  decide (strip_dots_to_nat version1 ≤ strip_dots_to_nat version2)

/-- The `re.sub(r"\_\d+$", "", key)` / `re.search(r"\_\d+$", key)` pair in
`utils.get_migrated_location`: split a schema key into the stripped name
and its trailing numeric `_N` suffix (empty when there is none). -/
def splitNumSuffix (s : String) : String × String :=
  let rcs := s.toList.reverse
  let ds := rcs.takeWhile Char.isDigit
  let rest := rcs.dropWhile Char.isDigit
  match rest with
  | '_' :: rest2 =>
    if ds.isEmpty then (s, "")
    else (String.mk rest2.reverse, String.mk ('_' :: ds.reverse))
  | _ => (s, "")

/-- One entry of the property-migration table. -/
structure MigrationEntry where
  source_schema : String
  property : String
  effective_from : String
  target_schema : String
  replaced_by : String

/-- The `for entry in property_migrations['migrations']` loop of
`utils.get_migrated_location` with its `break`: the first entry whose
source schema, property and effective-from version all match. -/
def find_migration_entry (source_schema prop version : String) :
    List MigrationEntry → Option MigrationEntry
  | [] => none
  | e :: rest =>
    if e.source_schema = source_schema ∧ e.property = prop
        ∧ hca_versions_in_asc_order e.effective_from version = true then some e
    else find_migration_entry source_schema prop version rest

/-- `utils.get_migrated_location`: rebuild the migrated path from the
first matching migration entry, preserving the numeric `_N` suffix of
the original schema key on the target schema key. (Python indexes
`hca_schema_path[0]`; the empty-path case cannot be reached from
`get_hca_value`, which guards on the first path segment.) -/
def get_migrated_location (property_migrations : List MigrationEntry)
    (describedBy_version : String) (hca_schema_path : List String) : Option (List String) :=
  match hca_schema_path with
  | [] => none
  | hca_key :: rest =>
    let source_schema := (splitNumSuffix hca_key).1
    let keySuffix := (splitNumSuffix hca_key).2
    let prop := String.intercalate "." rest
    match find_migration_entry source_schema prop describedBy_version property_migrations with
    | none => none
    | some e => some ((e.target_schema ++ keySuffix) :: str_split e.replaced_by ".")

/-- The `describedBy` version extraction in `utils.get_hca_value`:
`hca_data_structure[path[0]][describedBy].split('/')[-2]`. (Python
raises on a malformed record; those cases return `""` here and are not
exercised by any theorem.) -/
def get_declared_version (config : Config) (data : List (String × HVal))
    (schemaKey : String) : String :=
  match data.lookup schemaKey with
  | some (HVal.dict d) =>
    match d.lookup config.hca_schema_version_field_name with
    | some (HVal.str s) =>
      let parts := str_split s "/"
      parts.getD (parts.length - 2) ""
    | _ => ""
  | _ => ""

/-- `utils.get_hca_value`: direct resolution, then—only when it returned
the NOTFOUND sentinel and the first path segment exists in the
record—at most one migration reroute resolved through the same
traversal. -/
def get_hca_value (config : Config) (property_migrations : List MigrationEntry)
    (magetab_label : String) (hca_schema_path : List String)
    (hca_data_structure : List (String × HVal)) : Option HVal :=
  let value := get_hca_value_for_path config magetab_label hca_schema_path hca_data_structure
  if opt_is_str value config.notfound then
    match hca_schema_path with
    | [] => value
    | k :: _ =>
      if (hca_data_structure.lookup k).isSome then
        let ver := get_declared_version config hca_data_structure k
        match get_migrated_location property_migrations ver hca_schema_path with
        | some mpath => get_hca_value_for_path config magetab_label mpath hca_data_structure
        | none => value
      else value
  else value

/-! ## Row building (`utils.add_to_row`, the per-rule loop of
`hca2mtab.convert_hca_json_to_magetab`, lines 151-232) -/

/-- `re.search(pat, s)` for the literal patterns the engine uses
(`"Characteristic"`, `"Characteristics"`): substring containment.
-/
def contains_substring (s pat : String) : Bool :=
  contains_chars pat.toList s.toList

/-- `utils.store_characteristic_value`: record a characteristic value in
the per-experiment tracker; values form a set (first occurrence kept). -/
def store_characteristic_value (characteristic value : String)
    (characteristic_values : List (String × List String)) : List (String × List String) :=
  match characteristic_values with
  | [] => [(characteristic, [value])]
  | (c, vs) :: rest =>
    if c = characteristic then
      (c, if value ∈ vs then vs else vs ++ [value]) :: rest
    else (c, vs) :: store_characteristic_value characteristic value rest

/-- The mutable state threaded through one SDRF row build: the header
list, the row cells, the set of column indexes observed non-empty, and
the characteristic-value tracker. -/
structure RowState where
  headers : List String
  row : List String
  indexes_of_non_empty : List Nat
  characteristic_values : List (String × List String)

/-- `utils.add_to_row`: append the label to the headers; track the value
for a characteristic label unless it is the CURATE or NOTFOUND
sentinel; write NOTFOUND out as the empty string; mark the new column
non-empty when the written value is non-empty; append the cell. -/
def add_to_row (config : Config) (st : RowState)
    (sdrf_column_header value : String) : RowState :=
  let headers' := st.headers ++ [sdrf_column_header]
  let cvs :=
    if contains_substring sdrf_column_header "Characteristic"
        ∧ value ≠ config.curate ∧ value ≠ config.notfound then
      store_characteristic_value sdrf_column_header value st.characteristic_values
    else st.characteristic_values
  let value' := if value = config.notfound then "" else value
  let ne :=
    if value' ≠ "" then
      if (headers'.length - 1) ∈ st.indexes_of_non_empty then st.indexes_of_non_empty
      else st.indexes_of_non_empty ++ [headers'.length - 1]
    else st.indexes_of_non_empty
  { headers := headers', row := st.row ++ [value'],
    indexes_of_non_empty := ne, characteristic_values := cvs }

/-- `utils.position_valid_for_sdrf_column`. `none` models the Python
`IndexError` raised by `sdrf_column_headers[-1]` on an empty header
list (reached only for a column name with an adjacency constraint). -/
def position_valid_for_sdrf_column (col_name : String)
    (sdrf_column_headers : List String) (config : Config) : Option Bool :=
  match config.sdrf_colkey_after_colvalues.lookup col_name with
  | none => some true
  | some allowed =>
    match sdrf_column_headers.getLast? with
    | none => none
    | some prev => some (allowed.contains prev)

/-- A configured path specification, as the row-building loop
distinguishes it: `lit` for a non-list `hca_path` (emitted verbatim),
`path` for a list. -/
inductive PathSpec where
  | lit : String → PathSpec
  | path : List String → PathSpec

/-- One iteration of the `for line_item in sdrf_config` loop, lines
154-232 of `hca2mtab.py`. Every branch of the loop body computes a
value from the bundle's JSON (never from the row state) and ends in a
single `add_to_row` call; `valueOf` abstracts those value computations.
A positional rule is skipped outright (`continue`) when
`position_valid_for_sdrf_column` answers false; `none` propagates the
`IndexError` case. -/
def process_line_item (config : Config) (valueOf : String → List String → String)
    (st : RowState) (item : String × PathSpec) : Option RowState :=
  match item.2 with
  | PathSpec.lit s => some (add_to_row config st item.1 s)
  | PathSpec.path p =>
    match position_valid_for_sdrf_column item.1 st.headers config with
    | none => none
    | some false => some st
    | some true => some (add_to_row config st item.1 (valueOf item.1 p))

/-- The whole `for line_item in sdrf_config` loop. -/
def build_row (config : Config) (valueOf : String → List String → String) :
    List (String × PathSpec) → RowState → Option RowState
  | [], st => some st
  | item :: rest, st =>
    match process_line_item config valueOf st item with
    | none => none
    | some st2 => build_row config valueOf rest st2

/-! ## Empty-column pruning (`utils.remove_empty_columns`, the
emptiness tracking of `hca2mtab.py` lines 84, 243, 267) -/

/-- Insertion step of Python's `sorted` (ascending, stable). -/
def insert_sorted (x : Nat) : List Nat → List Nat
  | [] => [x]
  | y :: t => if x ≤ y then x :: y :: t else y :: insert_sorted x t

/-- Python's `sorted` on a list of indexes. -/
def sort_nats (l : List Nat) : List Nat := l.foldr insert_sorted []

/-- The `row.pop(idx - position_shift)` loop of
`utils.remove_empty_columns`, already given the sorted index list. -/
def remove_sorted {α : Type} : List α → List Nat → Nat → List α
  | l, [], _ => l
  | l, idx :: rest, shift => remove_sorted (l.eraseIdx (idx - shift)) rest (shift + 1)

/-- `utils.remove_empty_columns`: drop the elements of `row` at the
positions in `indexes_of_empty_columns`. -/
def remove_empty_columns {α : Type} (row : List α) (indexes_of_empty_columns : List Nat) :
    List α :=
  remove_sorted row (sort_nats indexes_of_empty_columns) 0

/-- Membership of column `j` in a bundle's
`indexes_of_non_empty_sdrf_columns`: `add_to_row` marks `j` exactly when
the value written into cell `j` of some row of the bundle is non-empty. -/
def bundle_nonempty (b : List (List String)) (j : Nat) : Bool :=
  b.any (fun r => r.getD j "" != "")

/-- The per-technology emptiness tracking: start from
`range(len(sdrf_config))` (line 243) and, per bundle, keep only indexes
not observed non-empty (line 267). -/
def compute_empty_columns (n : Nat) (bundles : List (List (List String))) : List Nat :=
  bundles.foldl (fun e b => e.filter (fun j => !(bundle_nonempty b j))) (List.range n)

/-! ## Protocol-column expansion (`utils.expand_protocol_columns`) -/

/-- State of the imperative loop in `utils.expand_protocol_columns`:
the (optional) data row, the headers being mutated, the running column
index and the running protocol-type index. -/
structure ExpandState where
  row : Option (List String)
  headers : List String
  col_idx : Nat
  protocol_type_idx : Nat

/-- Python's `if row:` truthiness: a present, non-empty list. -/
def row_truthy : Option (List String) → Bool
  | none => false
  | some l => !l.isEmpty

/-- The `while num_new_columns_to_be_added > 0` loop: in row mode insert
the next remaining value (if any) at the current column; in header mode
insert another `'Protocol REF'` header; always advance the column index
and the countdown. -/
def expand_while : Nat → Option (List String) → List String → List String → Nat →
    Option (List String) × List String × List String × Nat
  | 0, row, headers, values, col_idx => (row, headers, values, col_idx)
  | Nat.succ k, row, headers, values, col_idx =>
    if row_truthy row then
      match values with
      | [] => expand_while k row headers [] (col_idx + 1)
      | v :: vs => expand_while k (row.map (List.insertIdx col_idx v)) headers vs (col_idx + 1)
    else
      expand_while k row (headers.insertIdx col_idx "Protocol REF") values (col_idx + 1)

/-- The write after the while loop: in row mode, overwrite the cell now
at the running column with the last remaining value, or with the empty
string when no value is left. -/
def final_protocol_write (row1 : Option (List String)) (values1 : List String)
    (col1 : Nat) : Option (List String) :=
  if row_truthy row1 then
    match values1 with
    | v :: _ => row1.map (fun r => r.set col1 v)
    | [] => row1.map (fun r => r.set col1 "")
  else row1

/-- One iteration of the `for header in original_headers` loop of
`utils.expand_protocol_columns`. -/
def expand_step (counts : List (String × Nat)) (ptypes : List String)
    (st : ExpandState) (header : String) : ExpandState :=
  if header = "Protocol REF" then
    let ptype := ptypes.getD st.protocol_type_idx ""
    let num := (counts.lookup ptype).getD 0
    let values0 :=
      if row_truthy st.row then str_split ((st.row.getD []).getD st.col_idx "") ","
      else []
    let ew := expand_while (num - 1) st.row st.headers values0 st.col_idx
    { row := final_protocol_write ew.1 ew.2.2.1 ew.2.2.2, headers := ew.2.1,
      col_idx := ew.2.2.2 + 1, protocol_type_idx := st.protocol_type_idx + 1 }
  else { st with col_idx := st.col_idx + 1 }

/-- `utils.expand_protocol_columns` (`row = None` is header mode): the
loop runs over a copy of the incoming headers while mutating row or
headers in place; returns the final row and headers. -/
def expand_protocol_columns (row : Option (List String)) (headers : List String)
    (protocol_type2num_protocols : List (String × Nat)) :
    Option (List String) × List String :=
  let ptypes := protocol_type2num_protocols.map Prod.fst
  let final := headers.foldl (expand_step protocol_type2num_protocols ptypes)
    { row := row, headers := headers, col_idx := 0, protocol_type_idx := 0 }
  (final.row, final.headers)

/-! ## Protocol aggregation (`hca2mtab.py` lines 108-118 and 248-260) -/

/-- A protocol's (name, description, type) triple. -/
structure ProtocolTriple where
  name : String
  description : String
  ptype : String
deriving DecidableEq

/-- `OrderedSet.add` over a whole list: deduplicate keeping first
occurrences (the bundle-local `protocol_type2protocols_in_bundle` sets
of lines 108-118). -/
def ordered_dedup {α : Type} [DecidableEq α] : List α → List α
  | [] => []
  | a :: t => a :: (ordered_dedup t).filter (fun b => b ≠ a)

/-- Update an association list in place at a key known to be present
(Python dict assignment to an existing key keeps its position). -/
def alist_set {α : Type} (l : List (String × α)) (k : String) (v : α) : List (String × α) :=
  l.map (fun p => if p.1 = k then (p.1, v) else p)

/-- The body of the `for protocol_type in ...` loop at lines 248-256 of
`hca2mtab.py`, viewed for one technology: a protocol type with a
positive distinct-triple count is recorded on first sight and
otherwise keeps the maximum of the old and new counts. -/
def update_protocol_max_step (acc : List (String × Nat)) (pc : String × Nat) :
    List (String × Nat) :=
  if pc.2 > 0 then
    match acc.lookup pc.1 with
    | none => acc ++ [(pc.1, pc.2)]
    | some m => alist_set acc pc.1 (max pc.2 m)
  else acc

/-- Lines 248-256 of `hca2mtab.py` for one bundle: fold the update over
the bundle's per-protocol-type counts. -/
def update_protocol_maxes (st : List (String × Nat)) (bundle_counts : List (String × Nat)) :
    List (String × Nat) :=
  bundle_counts.foldl update_protocol_max_step st

/-- Per-bundle distinct-triple counts: the bundle's protocol collection
(lines 108-118) keyed by protocol type, with `OrderedSet` semantics. -/
def bundle_protocol_counts (b : List (String × List ProtocolTriple)) : List (String × Nat) :=
  b.map (fun pt => (pt.1, (ordered_dedup pt.2).length))

/-- The whole cross-bundle maximum tracking for one technology
(`technology2protocol_type2max_protocol_num_per_sample[technology]`
after all bundles): fold the per-bundle update. -/
def protocol_maxes_for_technology (bundles : List (List (String × List ProtocolTriple))) :
    List (String × Nat) :=
  bundles.foldl (fun st b => update_protocol_maxes st (bundle_protocol_counts b)) []

/-- Lines 257-260: the per-technology union of protocol triples (kept
for the IDF), with `OrderedSet` merge semantics. -/
def protocol_union_for_technology (bundles : List (List (String × List ProtocolTriple)))
    (pt : String) : List ProtocolTriple :=
  ordered_dedup (bundles.foldl (fun acc b => acc ++ (b.lookup pt).getD []) [])

/-! ## Technology derivation and the routing step (`utils.get_gxa_technology`,
`hca2mtab.py` lines 234-264) -/

/-- `utils.get_gxa_technology`: scan the technology-synonym table; a key
any of whose synonym regexes matches overwrites the result (the inner
`break` leaves the outer loop running). Regex matching itself is
abstracted by the `regex_match` oracle. -/
def get_gxa_technology (regex_match : String → String → Bool)
    (technology_mtab2hca : List (String × List String)) (hca_technology : String) :
    Option String :=
  technology_mtab2hca.foldl
    (fun acc kv => if kv.2.any (fun v => regex_match v hca_technology) then some kv.1 else acc)
    none

/-- The one fatal error kind, `utils.HCA2MagetabTranslationError`. -/
structure TranslationError where
  msg : String

/-- Per-technology accumulator of the orchestration loop. -/
structure TechState where
  rows : List (List String)
  sdrf_column_headers : List String
  indexes_of_empty_columns : List Nat
  protocol_maxes : List (String × Nat)
  protocols : List (String × List ProtocolTriple)

/-- Lines 234-264 of `hca2mtab.py`, the per-row routing step for one
technology stream: with a derived technology the row is appended, the
header snapshot and emptiness set are initialised on first sight, and
the protocol maxima are merged; with no technology the experiment
aborts with the translation error built from the last
`hca_technology` value. Protocol-union merging (lines 257-260) is
modelled separately by `protocol_union_for_technology`. -/
def route_row (technology : Option String) (hca_technology : String)
    (sdrf_config_len : Nat) (current_row headers : List String)
    (bundle : List (String × List ProtocolTriple))
    (acc : Option TechState) : Except TranslationError TechState :=
  match technology with
  | none =>
    Except.error ⟨"Failed to retrieve valid technology from value: " ++ hca_technology⟩
  | some _ =>
    match acc with
    | none =>
      Except.ok
        { rows := [current_row], sdrf_column_headers := headers,
          indexes_of_empty_columns := List.range sdrf_config_len,
          protocol_maxes := update_protocol_maxes [] (bundle_protocol_counts bundle),
          protocols := [] }
    | some st =>
      Except.ok
        { st with
          rows := st.rows ++ [current_row],
          protocol_maxes := update_protocol_maxes st.protocol_maxes
            (bundle_protocol_counts bundle) }

/-! ## Factor derivation (`hca2mtab.py` lines 277-295 and 316-319) -/

/-- Python's `re.sub("Characteristics", "FactorValue", label)`. -/
def factor_label (characteristic : String) : String :=
  str_replace characteristic "Characteristics" "FactorValue"

/-- Lines 277-287: walk the characteristic tracker in order; for each
characteristic present in this technology's (current) headers with more
than one distinct tracked value, append the factor column to the
headers, record it in the factor list, and remember the index of the
source characteristic column. Returns (headers, factors, factor →
source column index). -/
def derive_factors (headers : List String)
    (characteristic_values : List (String × List String)) :
    List String × List String × List (String × Nat) :=
  characteristic_values.foldl
    (fun acc cv =>
      match acc with
      | (hs, factors, colnum) =>
        if cv.1 ∈ hs ∧ 1 < (ordered_dedup cv.2).length then
          let f := factor_label cv.1
          (hs ++ [f], factors ++ [f], colnum ++ [(f, (hs ++ [f]).indexOf cv.1)])
        else (hs, factors, colnum))
    (headers, [], [])

/-- Lines 316-319: append, for each derived factor, a copy of this row's
cell in the recorded source column. -/
def append_factor_values (row : List String) (factors : List String)
    (colnum : List (String × Nat)) : List String :=
  factors.foldl (fun r f => r ++ [r.getD ((colnum.lookup f).getD 0) ""]) row

/-! ## Concrete configurations used by counterexamples and witnesses -/

/-- A configuration with empty translation and adjacency tables. -/
def cfg_plain : Config :=
  { notfound := "NOTFOUND", curate := "CURATE",
    hca_schema_version_field_name := "describedBy",
    cv_translate := [], sdrf_colkey_after_colvalues := [] }

/-- A configuration whose translation table declares a `default` for the
label `"Comment[LIBRARY_LAYOUT]"` (the binary-style case the code
comments mention). -/
def cfg_default_translate : Config :=
  { cfg_plain with cv_translate := [("Comment[LIBRARY_LAYOUT]", [("default", "SINGLE")])] }

/-- A configuration constraining `"Material Type"` to follow
`"Source Name"`, as `hca2mtab.yml`'s adjacency table does. -/
def cfg_adjacent : Config :=
  { cfg_plain with sdrf_colkey_after_colvalues := [("Material Type", ["Source Name"])] }

/-! ## Claim C1: path traversal on reaching a leaf -/

/-- Claim C1 as stated is false: resolving the path `["a", "b"]` against
the record `{"a": "1"}` reaches the leaf `"1"` at key `"a"` before the
path is exhausted, yet resolution does not stop there — the remaining
element `"b"` is consulted, is absent, and turns the result into
NOTFOUND instead of the leaf `"1"`. -/
theorem C1_counterexample :
    get_hca_value_for_path cfg_plain "lbl" ["a", "b"] [("a", HVal.str "1")]
      = some (HVal.str "NOTFOUND")
    ∧ (some (HVal.str "NOTFOUND") : Option HVal) ≠ some (HVal.str "1") := by
  refine ⟨rfl, fun h => ?_⟩
  simp only [Option.some.injEq, HVal.str.injEq] at h
  exact absurd h (by decide)

/-- Claim C1 amended: when traversal reaches a key whose value is a leaf,
the leaf is recorded but the remaining path elements are still consulted
against the same mapping, and they can change the result: the leaf is
returned (translated) when it sits at the last path element or when the
following key holds a nested mapping, but a later leaf key overrides it
and a later absent key turns the result into NOTFOUND. -/
theorem C1_leaf_resolution_continues (config : Config) (label k1 k2 v1 : String)
    (d : List (String × HVal)) (h1 : d.lookup k1 = some (HVal.str v1)) :
    get_hca_value_for_path config label [k1] d
      = get_magetab_equivalent label (some (HVal.str v1)) config
    ∧ (d.lookup k2 = none →
        get_hca_value_for_path config label [k1, k2] d
          = get_magetab_equivalent label (some (HVal.str config.notfound)) config)
    ∧ (∀ v2, d.lookup k2 = some (HVal.str v2) →
        get_hca_value_for_path config label [k1, k2] d
          = get_magetab_equivalent label (some (HVal.str v2)) config)
    ∧ (∀ d2, d.lookup k2 = some (HVal.dict d2) →
        get_hca_value_for_path config label [k1, k2] d
          = get_magetab_equivalent label (some (HVal.str v1)) config) := by
  refine ⟨?_, fun h2 => ?_, fun v2 h2 => ?_, fun d2 h2 => ?_⟩
  · simp [get_hca_value_for_path, traverse_path, h1]
  · simp [get_hca_value_for_path, traverse_path, h1, h2]
  · simp [get_hca_value_for_path, traverse_path, h1, h2]
  · simp [get_hca_value_for_path, traverse_path, h1, h2]

/-- Witness for `C1_leaf_resolution_continues` at the record
`{"a": "1", "c": {}}`: its hypothesis and each conjunct's inner
hypothesis are discharged on concrete lookups. -/
theorem C1_witness :
    get_hca_value_for_path cfg_plain "lbl" ["a", "b"] [("a", HVal.str "1"), ("c", HVal.dict [])]
      = get_magetab_equivalent "lbl" (some (HVal.str cfg_plain.notfound)) cfg_plain
    ∧ get_hca_value_for_path cfg_plain "lbl" ["a", "c"] [("a", HVal.str "1"), ("c", HVal.dict [])]
      = get_magetab_equivalent "lbl" (some (HVal.str "1")) cfg_plain :=
  ⟨(C1_leaf_resolution_continues cfg_plain "lbl" "a" "b" "1"
      [("a", HVal.str "1"), ("c", HVal.dict [])] rfl).2.1 rfl,
   (C1_leaf_resolution_continues cfg_plain "lbl" "a" "c" "1"
      [("a", HVal.str "1"), ("c", HVal.dict [])] rfl).2.2.2 [] rfl⟩

/-! ## Claim C3: translation applied to the NOTFOUND sentinel -/

/-- Claim C3 as stated is false: for the label
`"Comment[LIBRARY_LAYOUT]"` under a translation configuration with a
`default` entry, translating the NOTFOUND sentinel yields the default
value `"SINGLE"`, not NOTFOUND. -/
theorem C3_counterexample :
    get_magetab_equivalent "Comment[LIBRARY_LAYOUT]"
        (some (HVal.str cfg_default_translate.notfound)) cfg_default_translate
      = some (HVal.str "SINGLE")
    ∧ (some (HVal.str "SINGLE") : Option HVal)
      ≠ some (HVal.str cfg_default_translate.notfound) := by
  refine ⟨rfl, fun h => ?_⟩
  simp only [Option.some.injEq, HVal.str.injEq, cfg_default_translate, cfg_plain] at h
  exact absurd h (by decide)

/-- Claim C3 amended: translating the NOTFOUND sentinel returns it
unchanged when the output label has no translation table, and when it
has one containing neither an entry for the sentinel itself nor a
`default` entry; a `default` entry (the binary-style-field case)
replaces the sentinel with the default value instead. -/
theorem C3_translation_notfound (label : String) (config : Config) :
    (config.cv_translate.lookup label = none →
      get_magetab_equivalent label (some (HVal.str config.notfound)) config
        = some (HVal.str config.notfound))
    ∧ (∀ tbl, config.cv_translate.lookup label = some tbl →
        tbl.lookup config.notfound = none → tbl.lookup "default" = none →
        get_magetab_equivalent label (some (HVal.str config.notfound)) config
          = some (HVal.str config.notfound))
    ∧ (∀ tbl d, config.cv_translate.lookup label = some tbl →
        tbl.lookup config.notfound = none → tbl.lookup "default" = some d →
        get_magetab_equivalent label (some (HVal.str config.notfound)) config
          = some (HVal.str d)) := by
  refine ⟨fun h => ?_, fun tbl h hnf hd => ?_, fun tbl d h hnf hd => ?_⟩
  · simp [get_magetab_equivalent, h]
  · simp [get_magetab_equivalent, h, hnf, hd]
  · simp [get_magetab_equivalent, h, hnf, hd]

/-- Witness for `C3_translation_notfound`: the untranslated-label case at
`cfg_plain` and the default case at `cfg_default_translate`. -/
theorem C3_witness :
    get_magetab_equivalent "lbl" (some (HVal.str cfg_plain.notfound)) cfg_plain
      = some (HVal.str cfg_plain.notfound)
    ∧ get_magetab_equivalent "Comment[LIBRARY_LAYOUT]"
        (some (HVal.str cfg_default_translate.notfound)) cfg_default_translate
      = some (HVal.str "SINGLE") :=
  ⟨(C3_translation_notfound "lbl" cfg_plain).1 rfl,
   (C3_translation_notfound "Comment[LIBRARY_LAYOUT]" cfg_default_translate).2.2
      [("default", "SINGLE")] "SINGLE" rfl rfl rfl⟩

/-! ## Claim C10: partiality of `position_valid_for_sdrf_column` -/

/-- Claim C10: for a column name with a configured adjacency constraint,
the check reads the last element of the header list, so on an empty
header list it hits an out-of-range index access (modelled `none`)
instead of returning a boolean; an unconstrained column name always
yields `True`, and a non-empty header list always yields a boolean. -/
theorem C10_position_valid_precondition (col_name : String) (config : Config) :
    (∀ allowed, config.sdrf_colkey_after_colvalues.lookup col_name = some allowed →
      position_valid_for_sdrf_column col_name [] config = none)
    ∧ (config.sdrf_colkey_after_colvalues.lookup col_name = none →
      ∀ headers, position_valid_for_sdrf_column col_name headers config = some true)
    ∧ (∀ headers, headers ≠ [] →
      (position_valid_for_sdrf_column col_name headers config).isSome = true) := by
  refine ⟨fun allowed h => ?_, fun h headers => ?_, fun headers hne => ?_⟩
  · simp [position_valid_for_sdrf_column, h]
  · simp [position_valid_for_sdrf_column, h]
  · rcases hl : config.sdrf_colkey_after_colvalues.lookup col_name with _ | allowed
    · simp [position_valid_for_sdrf_column, hl]
    · rcases hg : headers.getLast? with _ | prev
      · exact absurd (List.getLast?_eq_none_iff.mp hg) hne
      · simp [position_valid_for_sdrf_column, hl, hg]

/-- Witness for `C10_position_valid_precondition` at the constrained
column `"Material Type"` of `cfg_adjacent` and empty headers. -/
theorem C10_witness :
    position_valid_for_sdrf_column "Material Type" [] cfg_adjacent = none
    ∧ position_valid_for_sdrf_column "Other" [] cfg_adjacent = some true
    ∧ (position_valid_for_sdrf_column "Material Type" ["Source Name"] cfg_adjacent).isSome
      = true :=
  ⟨(C10_position_valid_precondition "Material Type" cfg_adjacent).1 ["Source Name"] rfl,
   (C10_position_valid_precondition "Other" cfg_adjacent).2.1 rfl [],
   (C10_position_valid_precondition "Material Type" cfg_adjacent).2.2 ["Source Name"]
     (by simp)⟩

/-! ## Claim C4: row/header alignment invariant -/

/-- `add_to_row` appends exactly one header label and exactly one cell. -/
theorem add_to_row_lengths (config : Config) (st : RowState) (label value : String) :
    (add_to_row config st label value).headers.length = st.headers.length + 1
    ∧ (add_to_row config st label value).row.length = st.row.length + 1 := by
  simp [add_to_row]

/-- A single rule application preserves the alignment invariant. -/
theorem process_line_item_alignment (config : Config)
    (valueOf : String → List String → String) (st st' : RowState)
    (item : String × PathSpec)
    (h : process_line_item config valueOf st item = some st')
    (hlen : st.headers.length = st.row.length) :
    st'.headers.length = st'.row.length := by
  rcases item with ⟨label, ps⟩
  cases ps with
  | lit s =>
    simp only [process_line_item, Option.some.injEq] at h
    subst h
    simp [add_to_row, hlen]
  | path p =>
    simp only [process_line_item] at h
    cases hv : position_valid_for_sdrf_column label st.headers config with
    | none => rw [hv] at h; cases h
    | some b =>
      rw [hv] at h
      cases b with
      | false =>
        simp only [Option.some.injEq] at h
        subst h; exact hlen
      | true =>
        simp only [Option.some.injEq] at h
        subst h
        simp [add_to_row, hlen]

/-- Claim C4: every cell emission appends exactly one label to the
header list and one value to the row, and a skipped positional role
emits neither, so any successful (non-crashing) run of the rule loop
keeps `len(row) = len(headers)` — in particular at every prefix of the
configuration, since `items` here is arbitrary. -/
theorem C4_row_header_alignment (config : Config)
    (valueOf : String → List String → String) (items : List (String × PathSpec))
    (st0 : RowState) (h0 : st0.headers.length = st0.row.length) :
    (∀ st, build_row config valueOf items st0 = some st →
      st.headers.length = st.row.length)
    ∧ (∀ (label : String) (p : List String) (st : RowState),
        position_valid_for_sdrf_column label st.headers config = some false →
        process_line_item config valueOf st (label, PathSpec.path p) = some st) := by
  constructor
  · induction items generalizing st0 with
    | nil =>
      intro st h
      simp only [build_row, Option.some.injEq] at h
      exact h ▸ h0
    | cons item rest ih =>
      intro st h
      simp only [build_row] at h
      cases hp : process_line_item config valueOf st0 item with
      | none => rw [hp] at h; cases h
      | some st1 =>
        rw [hp] at h
        exact ih st1 (process_line_item_alignment config valueOf st0 st1 item hp h0) st h
  · intro label p st hv
    simp [process_line_item, hv]

/-- Witness for `C4_row_header_alignment`: a two-rule configuration under
`cfg_adjacent` (the second rule's adjacency constraint is satisfied)
builds an aligned two-cell row. -/
theorem C4_witness :
    build_row cfg_adjacent (fun _ _ => "v")
        [("Source Name", PathSpec.path ["p"]), ("Material Type", PathSpec.path ["q"])]
        ⟨[], [], [], []⟩
      = some ⟨["Source Name", "Material Type"], ["v", "v"], [0, 1], []⟩
    ∧ (⟨["Source Name", "Material Type"], ["v", "v"], [0, 1], []⟩ : RowState).headers.length
      = (⟨["Source Name", "Material Type"], ["v", "v"], [0, 1], []⟩ : RowState).row.length :=
  ⟨rfl,
   (C4_row_header_alignment cfg_adjacent (fun _ _ => "v")
      [("Source Name", PathSpec.path ["p"]), ("Material Type", PathSpec.path ["q"])]
      ⟨[], [], [], []⟩ rfl).1
     ⟨["Source Name", "Material Type"], ["v", "v"], [0, 1], []⟩ rfl⟩

/-! ## Claim C9: unresolved-technology abort -/

/-- When no synonym of any technology matches, the synonym scan derives
no technology. -/
theorem get_gxa_technology_eq_none (regex_match : String → String → Bool)
    (technology_mtab2hca : List (String × List String)) (hca_technology : String)
    (h : ∀ kv ∈ technology_mtab2hca, ∀ s ∈ kv.2, regex_match s hca_technology = false) :
    get_gxa_technology regex_match technology_mtab2hca hca_technology = none := by
  unfold get_gxa_technology
  induction technology_mtab2hca with
  | nil => rfl
  | cons kv rest ih =>
    simp only [List.foldl_cons]
    have hany : (kv.2.any fun v => regex_match v hca_technology) = false :=
      List.any_eq_false.mpr (fun s hs => by simp [h kv (by simp) s hs])
    rw [hany]
    exact ih (fun kv' h' s hs => h kv' (List.mem_cons_of_mem _ h') s hs)

/-- Claim C9: when the technology-indicating value matched no synonym,
the derived technology is `None` and the per-row routing step aborts
with the single translation-error kind; with any derived technology it
succeeds. -/
theorem C9_unresolved_technology_abort (regex_match : String → String → Bool)
    (technology_mtab2hca : List (String × List String)) (hca_technology : String)
    (sdrf_config_len : Nat) (current_row headers : List String)
    (bundle : List (String × List ProtocolTriple)) (acc : Option TechState)
    (hnomatch : ∀ kv ∈ technology_mtab2hca, ∀ s ∈ kv.2,
      regex_match s hca_technology = false) :
    get_gxa_technology regex_match technology_mtab2hca hca_technology = none
    ∧ route_row (get_gxa_technology regex_match technology_mtab2hca hca_technology)
        hca_technology sdrf_config_len current_row headers bundle acc
      = Except.error ⟨"Failed to retrieve valid technology from value: " ++ hca_technology⟩
    ∧ ∀ t, (route_row (some t) hca_technology sdrf_config_len current_row headers bundle
        acc).isOk = true := by
  have hnone := get_gxa_technology_eq_none regex_match technology_mtab2hca hca_technology
    hnomatch
  refine ⟨hnone, ?_, fun t => ?_⟩
  · rw [hnone]; rfl
  · cases acc <;> rfl

/-- Witness for `C9_unresolved_technology_abort`: the value `"bulk"`
matches no synonym under an always-false matcher, so the routing step
errors; routing with a present technology succeeds. -/
theorem C9_witness :
    get_gxa_technology (fun _ _ => false) [("smart-seq2", ["smart-seq.*"])] "bulk" = none
    ∧ route_row (get_gxa_technology (fun _ _ => false) [("smart-seq2", ["smart-seq.*"])] "bulk")
        "bulk" 3 ["r"] ["h"] [] none
      = Except.error ⟨"Failed to retrieve valid technology from value: " ++ "bulk"⟩
    ∧ ∀ t, (route_row (some t) "bulk" 3 ["r"] ["h"] [] none).isOk = true :=
  C9_unresolved_technology_abort (fun _ _ => false) [("smart-seq2", ["smart-seq.*"])]
    "bulk" 3 ["r"] ["h"] [] none (by intro kv _ s _; rfl)

/-! ## Claim C6: protocol-count maximum across bundles -/

/-- `List.lookup` over a cons cell, spelled with propositional equality. -/
theorem lookup_cons_pair {β : Type} (a k : String) (v : β) (l : List (String × β)) :
    ((k, v) :: l).lookup a = if a = k then some v else l.lookup a := by
  by_cases h : a = k
  · subst h; simp [List.lookup]
  · simp [List.lookup, h]
    rw [show (a == k) = false from by simpa using h]

/-- `List.lookup` searches the left list first. -/
theorem lookup_append {β : Type} (a : String) (l1 l2 : List (String × β)) :
    (l1 ++ l2).lookup a
      = match l1.lookup a with
        | some b => some b
        | none => l2.lookup a := by
  induction l1 with
  | nil => rfl
  | cons kv rest ih =>
    rcases kv with ⟨k, v⟩
    by_cases h : a = k <;> simp [lookup_cons_pair, h, ih]

/-- `alist_set` on a cons cell whose head key is the target. -/
theorem alist_set_cons_self {β : Type} (k : String) (v' v : β) (l : List (String × β)) :
    alist_set ((k, v') :: l) k v = (k, v) :: alist_set l k v := by
  simp [alist_set]

/-- `alist_set` on a cons cell whose head key differs from the target. -/
theorem alist_set_cons_ne {β : Type} (k' k : String) (v' v : β) (l : List (String × β))
    (h : k' ≠ k) : alist_set ((k', v') :: l) k v = (k', v') :: alist_set l k v := by
  simp [alist_set, h]

/-- Updating the value stored at key `k` changes only `k`'s lookup. -/
theorem lookup_alist_set_ne {β : Type} (l : List (String × β)) (k a : String) (v : β)
    (h : a ≠ k) : (alist_set l k v).lookup a = l.lookup a := by
  induction l with
  | nil => rfl
  | cons kv rest ih =>
    rcases kv with ⟨k', v'⟩
    by_cases hk : k' = k
    · subst hk
      rw [alist_set_cons_self, lookup_cons_pair, lookup_cons_pair, if_neg h, if_neg h]
      exact ih
    · rw [alist_set_cons_ne _ _ _ _ _ hk, lookup_cons_pair, lookup_cons_pair]
      by_cases ha : a = k'
      · simp [ha]
      · rw [if_neg ha, if_neg ha]
        exact ih

/-- Updating the value stored at a present key makes its lookup the new
value. -/
theorem lookup_alist_set_self {β : Type} (l : List (String × β)) (k : String) (v w : β)
    (h : l.lookup k = some w) : (alist_set l k v).lookup k = some v := by
  induction l with
  | nil => simp [List.lookup] at h
  | cons kv rest ih =>
    rcases kv with ⟨k', v'⟩
    by_cases hk : k' = k
    · subst hk
      rw [alist_set_cons_self, lookup_cons_pair, if_pos rfl]
    · rw [lookup_cons_pair, if_neg (fun he => hk he.symm)] at h
      rw [alist_set_cons_ne _ _ _ _ _ hk, lookup_cons_pair,
        if_neg (fun he => hk he.symm)]
      exact ih h

/-- The running tracked maximum for one protocol type, as an
`Option Nat` (absent until a positive count is seen). -/
def track_max (acc : Option Nat) (n : Nat) : Option Nat :=
  if n > 0 then
    match acc with
    | none => some n
    | some m => some (max n m)
  else acc

/-- One loop iteration leaves every other protocol type's entry alone. -/
theorem update_protocol_max_step_lookup_ne (acc : List (String × Nat))
    (pc : String × Nat) (pt : String) (h : pt ≠ pc.1) :
    (update_protocol_max_step acc pc).lookup pt = acc.lookup pt := by
  rcases pc with ⟨k, n⟩
  unfold update_protocol_max_step
  split
  · cases hl : acc.lookup k with
    | none =>
      rw [lookup_append]
      rw [lookup_cons_pair, if_neg h]
      cases acc.lookup pt <;> rfl
    | some m => exact lookup_alist_set_ne acc k pt _ h
  · rfl

/-- One loop iteration applies exactly `track_max` to its own protocol
type's entry. -/
theorem update_protocol_max_step_lookup_self (acc : List (String × Nat)) (k : String)
    (n : Nat) :
    (update_protocol_max_step acc (k, n)).lookup k = track_max (acc.lookup k) n := by
  unfold update_protocol_max_step track_max
  by_cases hn : n > 0
  · rw [if_pos hn, if_pos hn]
    cases hl : acc.lookup k with
    | none =>
      simp only [hl]
      rw [lookup_append, hl, lookup_cons_pair, if_pos rfl]
    | some m =>
      simp only [hl]
      exact lookup_alist_set_self acc k _ m hl
  · rw [if_neg hn, if_neg hn]

/-- Merging one bundle whose protocol-type keys avoid `pt` leaves `pt`'s
entry unchanged. -/
theorem update_protocol_maxes_lookup_notmem (st : List (String × Nat))
    (bc : List (String × Nat)) (pt : String) (h : pt ∉ bc.map Prod.fst) :
    (update_protocol_maxes st bc).lookup pt = st.lookup pt := by
  induction bc generalizing st with
  | nil => rfl
  | cons pc rest ih =>
    simp only [List.map_cons, List.mem_cons, not_or] at h
    rw [update_protocol_maxes, List.foldl_cons, ← update_protocol_maxes]
    rw [ih _ h.2, update_protocol_max_step_lookup_ne st pc pt h.1]

/-- The per-protocol-type effect of merging one bundle's counts: a
positive count starts or maxes the tracked value, a zero or absent
count leaves it alone. -/
theorem update_protocol_maxes_lookup (st bc : List (String × Nat)) (pt : String)
    (hnd : (bc.map Prod.fst).Nodup) :
    (update_protocol_maxes st bc).lookup pt
      = match bc.lookup pt with
        | none => st.lookup pt
        | some n => track_max (st.lookup pt) n := by
  induction bc generalizing st with
  | nil => rfl
  | cons pc rest ih =>
    rcases pc with ⟨k, n⟩
    simp only [List.map_cons, List.nodup_cons] at hnd
    rw [update_protocol_maxes, List.foldl_cons, ← update_protocol_maxes]
    by_cases hk : pt = k
    · subst hk
      rw [update_protocol_maxes_lookup_notmem _ rest pt hnd.1]
      rw [update_protocol_max_step_lookup_self st pt n]
      rw [lookup_cons_pair, if_pos rfl]
    · rw [ih _ hnd.2, update_protocol_max_step_lookup_ne st (k, n) pt hk]
      rw [lookup_cons_pair, if_neg hk]

/-- `bundle_protocol_counts` keys a bundle by its protocol types. -/
theorem bundle_protocol_counts_lookup (b : List (String × List ProtocolTriple))
    (pt : String) :
    (bundle_protocol_counts b).lookup pt
      = (b.lookup pt).map (fun ts => (ordered_dedup ts).length) := by
  induction b with
  | nil => rfl
  | cons kv rest ih =>
    rcases kv with ⟨k, ts⟩
    show ((k, (ordered_dedup ts).length) :: bundle_protocol_counts rest).lookup pt = _
    rw [lookup_cons_pair, lookup_cons_pair]
    by_cases hk : pt = k
    · simp [hk]
    · rw [if_neg hk, if_neg hk]
      exact ih

/-- The cross-bundle fold tracks, per protocol type, exactly the
`track_max` fold of the per-bundle distinct counts. -/
theorem protocol_maxes_foldl (bundles : List (List (String × List ProtocolTriple)))
    (st : List (String × Nat)) (pt : String)
    (hnd : ∀ b ∈ bundles, (b.map Prod.fst).Nodup) :
    (bundles.foldl (fun st b => update_protocol_maxes st (bundle_protocol_counts b))
        st).lookup pt
      = (bundles.map (fun b => (ordered_dedup ((b.lookup pt).getD [])).length)).foldl
          track_max (st.lookup pt) := by
  induction bundles generalizing st with
  | nil => rfl
  | cons b rest ih =>
    simp only [List.foldl_cons, List.map_cons]
    have hbk : ((bundle_protocol_counts b).map Prod.fst).Nodup := by
      have : (bundle_protocol_counts b).map Prod.fst = b.map Prod.fst := by
        simp [bundle_protocol_counts]
      rw [this]
      exact hnd b (by simp)
    rw [ih _ (fun b' hb' => hnd b' (List.mem_cons_of_mem _ hb'))]
    congr 1
    rw [update_protocol_maxes_lookup _ _ pt hbk, bundle_protocol_counts_lookup]
    cases hl : b.lookup pt with
    | none => simp [track_max, ordered_dedup]
    | some ts => simp

/-- Folding `track_max` from `some m` keeps a plain maximum. -/
theorem track_max_foldl_some (counts : List Nat) (m : Nat) :
    counts.foldl track_max (some m) = some (counts.foldl max m) := by
  induction counts generalizing m with
  | nil => rfl
  | cons n rest ih =>
    simp only [List.foldl_cons, track_max]
    by_cases hn : n > 0
    · rw [if_pos hn, ih, Nat.max_comm]
    · rw [if_neg hn]
      have : n = 0 := by omega
      subst this
      simpa using ih m

/-- Folding `track_max` from `none`: absent until some positive count,
then the maximum of all counts. -/
theorem track_max_foldl_none (counts : List Nat) :
    counts.foldl track_max none
      = if ∀ n ∈ counts, n = 0 then none else some (counts.foldl max 0) := by
  induction counts with
  | nil => rfl
  | cons n rest ih =>
    simp only [List.foldl_cons]
    by_cases hn : n > 0
    · rw [show track_max none n = some n from by simp [track_max, hn]]
      rw [track_max_foldl_some]
      rw [if_neg (by push_neg; exact ⟨n, by simp, by omega⟩)]
      have : max 0 n = n := by omega
      rw [this]
    · have hn0 : n = 0 := by omega
      subst hn0
      rw [show track_max none 0 = none from rfl, ih]
      by_cases hall : ∀ n ∈ rest, n = 0
      · rw [if_pos hall, if_pos (by simpa using hall)]
      · rw [if_neg hall, if_neg (by simpa using hall)]
        norm_num

/-- Claim C6: after all bundles of a technology are processed, the
tracked maximum for a protocol type is absent when every bundle's
distinct-triple count for it is zero, and otherwise equals the largest
number of distinct (name, description, type) triples collected for that
type in any single bundle — not the size of the cross-bundle union
(contrast `protocol_union_for_technology`, exercised in the witness). -/
theorem C6_protocol_max_aggregation
    (bundles : List (List (String × List ProtocolTriple))) (pt : String)
    (hnd : ∀ b ∈ bundles, (b.map Prod.fst).Nodup) :
    (protocol_maxes_for_technology bundles).lookup pt
      = (if ∀ b ∈ bundles, (ordered_dedup ((b.lookup pt).getD [])).length = 0 then none
        else some ((bundles.map
          (fun b => (ordered_dedup ((b.lookup pt).getD [])).length)).foldl max 0)) := by
  rw [protocol_maxes_for_technology, protocol_maxes_foldl bundles [] pt hnd]
  rw [show (([] : List (String × Nat)).lookup pt) = none from rfl]
  rw [track_max_foldl_none]
  by_cases h : ∀ b ∈ bundles, (ordered_dedup ((b.lookup pt).getD [])).length = 0
  · rw [if_pos (by simpa using h), if_pos h]
  · rw [if_neg (by simpa using h), if_neg h]

/-- Witness for `C6_protocol_max_aggregation`: two bundles carrying one
distinct `"enrichment"` triple each (`P1`, then `P2`) give a tracked
maximum of 1, while the cross-bundle union holds 2 distinct triples. -/
theorem C6_witness :
    (protocol_maxes_for_technology
        [[("enrichment", [⟨"P1", "d", "t"⟩])], [("enrichment", [⟨"P2", "d", "t"⟩])]]).lookup
        "enrichment"
      = some 1
    ∧ (protocol_union_for_technology
        [[("enrichment", [⟨"P1", "d", "t"⟩])], [("enrichment", [⟨"P2", "d", "t"⟩])]]
        "enrichment").length = 2
    ∧ (1 : Nat) ≠ 2 := by
  refine ⟨?_, rfl, by decide⟩
  rw [C6_protocol_max_aggregation _ "enrichment" (by
    intro b hb
    simp only [List.mem_cons, List.not_mem_nil, or_false] at hb
    rcases hb with h | h <;> subst h <;> simp)]
  rfl

/-! ## Claim C7: migration-fallback eligibility -/

/-- `opt_is_str` decides equality with the sentinel string. -/
theorem opt_is_str_iff (v : Option HVal) (s : String) :
    opt_is_str v s = true ↔ v = some (HVal.str s) := by
  cases v with
  | none => simp [opt_is_str]
  | some h =>
    cases h with
    | str t => simp [opt_is_str, beq_iff_eq]
    | arr l => simp [opt_is_str]
    | dict d => simp [opt_is_str]

/-- The migration-table loop takes the first entry satisfying the three
matching conditions. -/
theorem find_migration_entry_eq_find (ss prop ver : String) (pm : List MigrationEntry) :
    find_migration_entry ss prop ver pm
      = pm.find? (fun e => decide (e.source_schema = ss ∧ e.property = prop
          ∧ hca_versions_in_asc_order e.effective_from ver = true)) := by
  induction pm with
  | nil => rfl
  | cons e rest ih =>
    by_cases h : e.source_schema = ss ∧ e.property = prop
        ∧ hca_versions_in_asc_order e.effective_from ver = true
    · simp only [find_migration_entry]
      rw [if_pos h, List.find?_cons_of_pos _ (by simpa using h)]
    · simp only [find_migration_entry]
      rw [if_neg h, List.find?_cons_of_neg _ (by simpa using h)]
      exact ih

/-- Claim C7: when direct resolution did not return NOTFOUND, or the
first path segment is absent from the record, the direct result stands
and no reroute happens; when it returned NOTFOUND and the first segment
exists, the applied table entry is exactly the first one whose source
schema equals the suffix-stripped first segment, whose property equals
the dot-joined remainder, and whose effective-from version is ≤ the
declared version under the strip-dots integer comparison — and the
rebuilt path keeps the numeric `_N` suffix on the target schema key. -/
theorem C7_migration_fallback (config : Config) (pm : List MigrationEntry)
    (label k : String) (rest : List String) (data : List (String × HVal)) :
    (get_hca_value_for_path config label (k :: rest) data
        ≠ some (HVal.str config.notfound) →
      get_hca_value config pm label (k :: rest) data
        = get_hca_value_for_path config label (k :: rest) data)
    ∧ (data.lookup k = none →
      get_hca_value config pm label (k :: rest) data
        = get_hca_value_for_path config label (k :: rest) data)
    ∧ (get_hca_value_for_path config label (k :: rest) data
        = some (HVal.str config.notfound) →
      ∀ w, data.lookup k = some w →
      get_hca_value config pm label (k :: rest) data
        = match pm.find? (fun e => decide (e.source_schema = (splitNumSuffix k).1
              ∧ e.property = String.intercalate "." rest
              ∧ hca_versions_in_asc_order e.effective_from
                  (get_declared_version config data k) = true)) with
          | some e => get_hca_value_for_path config label
              ((e.target_schema ++ (splitNumSuffix k).2) :: str_split e.replaced_by ".") data
          | none => get_hca_value_for_path config label (k :: rest) data) := by
  have hred : get_hca_value config pm label (k :: rest) data
      = (if opt_is_str (get_hca_value_for_path config label (k :: rest) data)
            config.notfound then
          (if (data.lookup k).isSome then
            (match get_migrated_location pm (get_declared_version config data k)
                (k :: rest) with
              | some mpath => get_hca_value_for_path config label mpath data
              | none => get_hca_value_for_path config label (k :: rest) data)
          else get_hca_value_for_path config label (k :: rest) data)
        else get_hca_value_for_path config label (k :: rest) data) := rfl
  have hmig : get_migrated_location pm (get_declared_version config data k) (k :: rest)
      = (match find_migration_entry (splitNumSuffix k).1 (String.intercalate "." rest)
            (get_declared_version config data k) pm with
          | none => none
          | some e =>
            some ((e.target_schema ++ (splitNumSuffix k).2) :: str_split e.replaced_by ".")) :=
    rfl
  refine ⟨fun hne => ?_, fun habs => ?_, fun heq w hw => ?_⟩
  · rw [hred]
    rw [if_neg (fun hb => hne ((opt_is_str_iff _ _).mp hb))]
  · rw [hred]
    cases hb : opt_is_str (get_hca_value_for_path config label (k :: rest) data)
        config.notfound
    · rw [if_neg (by simp)]
    · rw [if_pos rfl, habs]
      rfl
  · rw [hred, if_pos ((opt_is_str_iff _ _).mpr heq), hw]
    rw [show (some w).isSome = true from rfl, if_pos rfl]
    rw [hmig, find_migration_entry_eq_find]
    cases hf : pm.find? (fun e => decide (e.source_schema = (splitNumSuffix k).1
        ∧ e.property = String.intercalate "." rest
        ∧ hca_versions_in_asc_order e.effective_from
            (get_declared_version config data k) = true)) with
    | none => rfl
    | some e => rfl

/-- The migration table used by `C7_witness`: `old.loc` of
`donor_organism` relocated to `new.loc` from version 9.0.0 on. -/
def pm_migr : List MigrationEntry :=
  [{ source_schema := "donor_organism", property := "old.loc", effective_from := "9.0.0",
     target_schema := "donor_organism", replaced_by := "new.loc" }]

/-- The record used by `C7_witness`: schema key `donor_organism_0`
(numeric suffix `_0`), declared version 10.0.0, value present only at
the migrated location. -/
def data_migr : List (String × HVal) :=
  [("donor_organism_0", HVal.dict
     [("describedBy",
        HVal.str "https://schema.humancellatlas.org/type/biomaterial/10.0.0/donor_organism"),
      ("new", HVal.dict [("loc", HVal.str "VAL")])])]

/-- Witness for `C7_migration_fallback`: direct resolution of
`donor_organism_0.old.loc` yields NOTFOUND, the eligible entry reroutes
it to `donor_organism_0.new.loc` (suffix preserved), and resolution
returns the migrated value. -/
theorem C7_witness :
    get_hca_value_for_path cfg_plain "lbl" ["donor_organism_0", "old", "loc"] data_migr
      = some (HVal.str cfg_plain.notfound)
    ∧ get_hca_value cfg_plain pm_migr "lbl" ["donor_organism_0", "old", "loc"] data_migr
      = some (HVal.str "VAL") := by
  refine ⟨rfl, ?_⟩
  have h := (C7_migration_fallback cfg_plain pm_migr "lbl" "donor_organism_0"
    ["old", "loc"] data_migr).2.2 rfl _ rfl
  rw [h]
  rfl

/-! ## Claim C8: factor derivation -/

/-- The characteristics qualifying for factor promotion: present in this
technology's headers with more than one tracked distinct value. -/
def qualifies (headers : List String) (cv : String × List String) : Bool :=
  decide (cv.1 ∈ headers ∧ 1 < (ordered_dedup cv.2).length)

/-- The factor-derivation fold, started from an arbitrary already-derived
state, appends exactly the qualifying characteristics' factor columns in
order, with each factor's recorded source index the first occurrence of
its characteristic in the original headers. The hypotheses rule out a
characteristic label colliding with a derived factor label (no real
`Characteristics[...]` label equals a `FactorValue[...]` label). -/
theorem derive_factors_foldl (headers : List String) (cvs : List (String × List String))
    (factors0 : List String) (colnum0 : List (String × Nat))
    (hker0 : ∀ cv ∈ cvs, cv.1 ∉ factors0)
    (hker : ∀ cv ∈ cvs, ∀ cv' ∈ cvs, cv.1 ≠ factor_label cv'.1) :
    cvs.foldl
      (fun acc cv =>
        match acc with
        | (hs, factors, colnum) =>
          if cv.1 ∈ hs ∧ 1 < (ordered_dedup cv.2).length then
            let f := factor_label cv.1
            (hs ++ [f], factors ++ [f], colnum ++ [(f, (hs ++ [f]).indexOf cv.1)])
          else (hs, factors, colnum))
      (headers ++ factors0, factors0, colnum0)
      = (headers ++ factors0 ++ (cvs.filter (qualifies headers)).map
            (fun cv => factor_label cv.1),
         factors0 ++ (cvs.filter (qualifies headers)).map (fun cv => factor_label cv.1),
         colnum0 ++ (cvs.filter (qualifies headers)).map
            (fun cv => (factor_label cv.1, headers.indexOf cv.1))) := by
  induction cvs generalizing factors0 colnum0 with
  | nil => simp
  | cons cv rest ih =>
    have hnotf : cv.1 ∉ factors0 := hker0 cv (by simp)
    have hmem : (cv.1 ∈ headers ++ factors0) ↔ cv.1 ∈ headers := by
      simp only [List.mem_append]
      exact or_iff_left hnotf
    rw [List.foldl_cons]
    by_cases hq : cv.1 ∈ headers ∧ 1 < (ordered_dedup cv.2).length
    · have hcond : cv.1 ∈ headers ++ factors0 ∧ 1 < (ordered_dedup cv.2).length :=
        ⟨hmem.mpr hq.1, hq.2⟩
      simp only [if_pos hcond]
      have hidx : ((headers ++ factors0) ++ [factor_label cv.1]).indexOf cv.1
          = headers.indexOf cv.1 := by
        rw [List.indexOf_append_of_mem (by exact List.mem_append_left _ hq.1)]
        exact List.indexOf_append_of_mem hq.1
      rw [hidx]
      have happ : (headers ++ factors0) ++ [factor_label cv.1]
          = headers ++ (factors0 ++ [factor_label cv.1]) := by
        rw [List.append_assoc]
      rw [happ]
      rw [ih (factors0 ++ [factor_label cv.1]) (colnum0 ++ [(factor_label cv.1,
          headers.indexOf cv.1)])
        (by
          intro cv' hcv'
          simp only [List.mem_append, List.mem_singleton, not_or]
          exact ⟨hker0 cv' (List.mem_cons_of_mem _ hcv'),
            hker cv' (List.mem_cons_of_mem _ hcv') cv (by simp)⟩)
        (fun cv' h' cv'' h'' =>
          hker cv' (List.mem_cons_of_mem _ h') cv'' (List.mem_cons_of_mem _ h''))]
      have hfq : qualifies headers cv = true := by
        simpa [qualifies] using hq
      simp [hfq, List.append_assoc]
    · have hcond : ¬ (cv.1 ∈ headers ++ factors0 ∧ 1 < (ordered_dedup cv.2).length) := by
        intro hc
        exact hq ⟨hmem.mp hc.1, hc.2⟩
      simp only [if_neg hcond]
      rw [ih factors0 colnum0 (fun cv' h' => hker0 cv' (List.mem_cons_of_mem _ h'))
        (fun cv' h' cv'' h'' =>
          hker cv' (List.mem_cons_of_mem _ h') cv'' (List.mem_cons_of_mem _ h''))]
      have hfq : qualifies headers cv = false := by
        simpa [qualifies] using hq
      simp [hfq]

/-- A present key under distinct keys looks up to its own value. -/
theorem lookup_of_mem_of_nodup {β : Type} (l : List (String × β)) (p : String × β)
    (hmem : p ∈ l) (hnd : (l.map Prod.fst).Nodup) : l.lookup p.1 = some p.2 := by
  induction l with
  | nil => cases hmem
  | cons q rest ih =>
    simp only [List.map_cons, List.nodup_cons] at hnd
    rcases List.mem_cons.mp hmem with h | h
    · subst h
      rw [lookup_cons_pair, if_pos rfl]
    · have hne : p.1 ≠ q.1 := by
        intro he
        exact hnd.1 (he ▸ (List.mem_map_of_mem Prod.fst h))
      rw [lookup_cons_pair, if_neg hne]
      exact ih h hnd.2

/-- The factor-value append loop, generalized over a growing suffix:
each appended cell is read below the original row length, so it comes
from the original row. -/
theorem append_factor_values_aux (row0 extra : List String)
    (colnum : List (String × Nat)) (fs : List String)
    (hlk : ∀ f ∈ fs, ((colnum.lookup f).getD 0) < row0.length) :
    fs.foldl (fun r f => r ++ [r.getD ((colnum.lookup f).getD 0) ""]) (row0 ++ extra)
      = row0 ++ extra ++ fs.map (fun f => row0.getD ((colnum.lookup f).getD 0) "") := by
  induction fs generalizing extra with
  | nil => simp
  | cons f rest ih =>
    rw [List.foldl_cons, List.map_cons]
    have hget : (row0 ++ extra).getD ((colnum.lookup f).getD 0) ""
        = row0.getD ((colnum.lookup f).getD 0) "" :=
      List.getD_append _ _ _ _ (hlk f (by simp))
    rw [hget, List.append_assoc row0 extra]
    rw [ih (extra ++ [row0.getD ((colnum.lookup f).getD 0) ""])
      (fun f' h' => hlk f' (List.mem_cons_of_mem _ h'))]
    simp

/-- Claim C8: for every characteristic in the tracker that appears in
this technology's headers and has more than one tracked distinct value,
exactly one factor column is appended (in tracker order) whose label
replaces `Characteristics` by `FactorValue`; the headers grow by exactly
those labels; and every row's appended factor cell is a copy of that
row's own cell in the source characteristic column (its first occurrence
in the headers). The hypotheses exclude label collisions between
characteristics and derived factor labels. -/
theorem C8_factor_derivation (headers : List String) (cvs : List (String × List String))
    (hker : ∀ cv ∈ cvs, ∀ cv' ∈ cvs, cv.1 ≠ factor_label cv'.1)
    (hnd : ((cvs.filter (qualifies headers)).map (fun cv => factor_label cv.1)).Nodup) :
    (derive_factors headers cvs).2.1
      = (cvs.filter (qualifies headers)).map (fun cv => factor_label cv.1)
    ∧ (derive_factors headers cvs).1 = headers ++ (derive_factors headers cvs).2.1
    ∧ ∀ row, row.length = headers.length →
        append_factor_values row (derive_factors headers cvs).2.1
            (derive_factors headers cvs).2.2
          = row ++ (cvs.filter (qualifies headers)).map
              (fun cv => row.getD (headers.indexOf cv.1) "") := by
  have hfold := derive_factors_foldl headers cvs [] []
    (fun cv _ => List.not_mem_nil _) hker
  have hd : derive_factors headers cvs
      = (headers ++ (cvs.filter (qualifies headers)).map (fun cv => factor_label cv.1),
         (cvs.filter (qualifies headers)).map (fun cv => factor_label cv.1),
         (cvs.filter (qualifies headers)).map
            (fun cv => (factor_label cv.1, headers.indexOf cv.1))) := by
    unfold derive_factors
    simpa using hfold
  refine ⟨by rw [hd], by rw [hd], fun row hrow => ?_⟩
  rw [hd]
  show ((cvs.filter (qualifies headers)).map (fun cv => factor_label cv.1)).foldl
      (fun r f => r ++ [r.getD ((((cvs.filter (qualifies headers)).map
        (fun cv => (factor_label cv.1, headers.indexOf cv.1))).lookup f).getD 0) ""]) row
    = _
  have hmapfst : ((cvs.filter (qualifies headers)).map
      (fun cv => (factor_label cv.1, headers.indexOf cv.1))).map Prod.fst
      = (cvs.filter (qualifies headers)).map (fun cv => factor_label cv.1) := by
    rw [List.map_map]
    rfl
  have hlk : ∀ cv ∈ cvs.filter (qualifies headers),
      ((cvs.filter (qualifies headers)).map
        (fun cv => (factor_label cv.1, headers.indexOf cv.1))).lookup (factor_label cv.1)
      = some (headers.indexOf cv.1) := by
    intro cv hcv
    exact lookup_of_mem_of_nodup _ (factor_label cv.1, headers.indexOf cv.1)
      (List.mem_map_of_mem _ hcv) (by rw [hmapfst]; exact hnd)
  have hidx : ∀ cv ∈ cvs.filter (qualifies headers),
      headers.indexOf cv.1 < row.length := by
    intro cv hcv
    have hq : qualifies headers cv = true := List.of_mem_filter hcv
    have : cv.1 ∈ headers := ((decide_eq_true_eq).mp hq).1
    rw [hrow]
    exact List.indexOf_lt_length.mpr this
  have := append_factor_values_aux row [] ((cvs.filter (qualifies headers)).map
      (fun cv => (factor_label cv.1, headers.indexOf cv.1)))
    ((cvs.filter (qualifies headers)).map (fun cv => factor_label cv.1))
    (by
      intro f hf
      rcases List.mem_map.mp hf with ⟨cv, hcv, hfe⟩
      subst hfe
      rw [hlk cv hcv]
      exact hidx cv hcv)
  simp only [List.append_nil] at this
  rw [this]
  congr 1
  rw [List.map_map]
  refine List.map_congr_left ?_
  intro cv hcv
  simp only [Function.comp_apply]
  rw [hlk cv hcv]
  rfl

/-- Witness for `C8_factor_derivation`: the spec's own example — a
characteristic column with observed values mouse and human over the
headers `[Source Name, Characteristics[organism]]` yields exactly the
factor column `FactorValue[organism]`, and the row `[s1, mouse]` gets
its own characteristic cell copied. -/
theorem C8_witness :
    (derive_factors ["Source Name", "Characteristics[organism]"]
        [("Characteristics[organism]", ["mouse", "human"])]).2.1
      = ["FactorValue[organism]"]
    ∧ append_factor_values ["s1", "mouse"]
        (derive_factors ["Source Name", "Characteristics[organism]"]
          [("Characteristics[organism]", ["mouse", "human"])]).2.1
        (derive_factors ["Source Name", "Characteristics[organism]"]
          [("Characteristics[organism]", ["mouse", "human"])]).2.2
      = ["s1", "mouse", "mouse"] := by
  have h := C8_factor_derivation ["Source Name", "Characteristics[organism]"]
    [("Characteristics[organism]", ["mouse", "human"])] (by decide) (by decide)
  refine ⟨?_, ?_⟩
  · rw [h.1]
    rfl
  · rw [h.2.2 ["s1", "mouse"] rfl]
    rfl

/-! ## Claim C2: empty-column pruning -/

/-- Reference filter for position-indexed removal: walk the list with a
position counter, dropping the elements whose position is in `E`. -/
def sieve {α : Type} (E : List Nat) : List α → Nat → List α
  | [], _ => []
  | a :: t, s => if s ∈ E then sieve E t (s + 1) else a :: sieve E t (s + 1)

/-- Sieving with no indexes keeps everything. -/
theorem sieve_nil_idx {α : Type} (l : List α) (s : Nat) : sieve [] l s = l := by
  induction l generalizing s with
  | nil => rfl
  | cons a t ih => simp [sieve, ih]

/-- An index below every position reached is never hit. -/
theorem sieve_drop_lt {α : Type} (idx : Nat) (E : List Nat) (l : List α) (s : Nat)
    (h : idx < s) : sieve (idx :: E) l s = sieve E l s := by
  induction l generalizing s with
  | nil => rfl
  | cons a t ih =>
    have hs : (s ∈ idx :: E) ↔ s ∈ E := by
      simp only [List.mem_cons, or_iff_right_iff_imp]
      intro he
      omega
    by_cases hm : s ∈ E
    · rw [sieve, if_pos (hs.mpr hm), sieve, if_pos hm, ih _ (by omega)]
    · rw [sieve, if_neg (fun hx => hm (hs.mp hx)), sieve, if_neg hm, ih _ (by omega)]

/-- Erasing the element at position `idx` (the smallest index) and
bumping the shift is the same as sieving with `idx` included. -/
theorem sieve_eraseIdx {α : Type} (idx : Nat) (E : List Nat) (l : List α) (s : Nat)
    (hs : s ≤ idx) (hlt : idx < s + l.length) (hE : ∀ i ∈ E, idx < i) :
    sieve (idx :: E) l s = sieve E (l.eraseIdx (idx - s)) (s + 1) := by
  induction l generalizing s with
  | nil => simp at hlt; omega
  | cons a t ih =>
    by_cases he : s = idx
    · subst he
      rw [show s - s = 0 from by omega, List.eraseIdx_cons_zero]
      rw [sieve, if_pos (by simp)]
      exact sieve_drop_lt s E t (s + 1) (by omega)
    · have hslt : s < idx := by omega
      have hmem : s ∉ idx :: E := by
        simp only [List.mem_cons, not_or]
        exact ⟨by omega, fun hx => by have := hE s hx; omega⟩
      rw [sieve, if_neg hmem]
      rw [show idx - s = (idx - (s + 1)) + 1 from by omega, List.eraseIdx_cons_succ]
      rw [sieve, if_neg (fun hx => by have := hE (s + 1) hx; omega)]
      rw [ih (s + 1) (by omega) (by simp at hlt ⊢; omega)]

/-- `remove_sorted` on a strictly increasing, in-range index list is the
position sieve. -/
theorem remove_sorted_eq_sieve {α : Type} (idxs : List Nat) (l : List α) (s : Nat)
    (hp : idxs.Pairwise (· < ·)) (hin : ∀ i ∈ idxs, s ≤ i ∧ i < s + l.length) :
    remove_sorted l idxs s = sieve idxs l s := by
  induction idxs generalizing l s with
  | nil => exact (sieve_nil_idx l s).symm
  | cons idx rest ih =>
    rw [List.pairwise_cons] at hp
    have h1 := hin idx (by simp)
    rw [remove_sorted]
    rw [ih _ _ hp.2 (by
      intro i hi
      have h2 := hin i (List.mem_cons_of_mem _ hi)
      have h3 := hp.1 i hi
      rw [List.length_eraseIdx, if_pos (by omega)]
      omega)]
    exact (sieve_eraseIdx idx rest l s h1.1 h1.2 hp.1).symm

/-- Sieving enumerates the surviving positions: it equals the position
range filtered to the kept indexes, each mapped to its element. -/
theorem sieve_eq_filter_map {α : Type} (E : List Nat) (d : α) (l : List α) (s : Nat) :
    sieve E l s
      = ((List.range' s l.length).filter (fun j => j ∉ E)).map (fun j => l.getD (j - s) d) := by
  induction l generalizing s with
  | nil => rfl
  | cons a t ih =>
    rw [show (a :: t).length = t.length + 1 from rfl, List.range'_succ]
    by_cases hm : s ∈ E
    · rw [sieve, if_pos hm]
      rw [List.filter_cons_of_neg (by simpa using hm)]
      rw [ih (s + 1)]
      refine List.map_congr_left ?_
      intro j hj
      have hjr := (List.mem_range'_1).mp (List.mem_filter.mp hj).1
      rw [show j - s = (j - (s + 1)) + 1 from by omega, List.getD_cons_succ]
    · rw [sieve, if_neg hm]
      rw [List.filter_cons_of_pos (by simpa using hm)]
      rw [List.map_cons, show s - s = 0 from by omega, List.getD_cons_zero]
      rw [ih (s + 1)]
      congr 1
      refine List.map_congr_left ?_
      intro j hj
      have hjr := (List.mem_range'_1).mp (List.mem_filter.mp hj).1
      rw [show j - s = (j - (s + 1)) + 1 from by omega, List.getD_cons_succ]

/-- Inserting below every element of a sorted list leaves it in place. -/
theorem insert_sorted_of_le (x : Nat) (t : List Nat) (h : ∀ y ∈ t, x ≤ y) :
    insert_sorted x t = x :: t := by
  cases t with
  | nil => rfl
  | cons y t' => rw [insert_sorted, if_pos (h y (by simp))]

/-- Python's `sorted` is the identity on an already strictly increasing
list. -/
theorem sort_nats_of_pairwise (l : List Nat) (hp : l.Pairwise (· < ·)) :
    sort_nats l = l := by
  induction l with
  | nil => rfl
  | cons x t ih =>
    rw [List.pairwise_cons] at hp
    rw [sort_nats, List.foldr_cons]
    rw [show List.foldr insert_sorted [] t = sort_nats t from rfl, ih hp.2]
    exact insert_sorted_of_le x t (fun y hy => Nat.le_of_lt (hp.1 y hy))

/-- The per-bundle winnowing of the empty-index list amounts to keeping
the indexes never observed non-empty in any bundle. -/
theorem compute_empty_columns_eq (n : Nat) (bundles : List (List (List String))) :
    compute_empty_columns n bundles
      = (List.range n).filter (fun j => !(bundles.any (fun b => bundle_nonempty b j))) := by
  suffices h : ∀ (bs : List (List (List String))) (l : List Nat),
      bs.foldl (fun e b => e.filter (fun j => !(bundle_nonempty b j))) l
        = l.filter (fun j => !(bs.any (fun b => bundle_nonempty b j))) by
    exact h bundles (List.range n)
  intro bs
  induction bs with
  | nil =>
    intro l
    simp
  | cons b rest ih =>
    intro l
    rw [List.foldl_cons, ih, List.filter_filter]
    refine List.filter_congr ?_
    intro j _
    simp only [List.any_cons, Bool.not_or]
    cases bundle_nonempty b j <;> cases rest.any (fun b => bundle_nonempty b j) <;> rfl

/-- Claim C2: after all bundles are processed, pruning with the tracked
empty-column set keeps exactly the columns that held a non-empty value
in at least one row of some bundle, in their original relative order,
and removes the others — identically from the header list and from
every length-`n` row. (`n` is the rule-configuration length, which
equals the header count when no rule was skipped; emptiness is
evaluated over the unexpanded, pre-derivation columns, matching the
orchestration order.) -/
theorem C2_empty_column_pruning (n : Nat) (bundles : List (List (List String)))
    (hdrs : List String) (hlen : hdrs.length = n) :
    remove_empty_columns hdrs (compute_empty_columns n bundles)
      = ((List.range n).filter (fun j => bundles.any (fun b => bundle_nonempty b j))).map
          (fun j => hdrs.getD j "")
    ∧ ∀ (row : List String), row.length = n →
        remove_empty_columns row (compute_empty_columns n bundles)
          = ((List.range n).filter (fun j => bundles.any (fun b => bundle_nonempty b j))).map
              (fun j => row.getD j "") := by
  have hE : compute_empty_columns n bundles
      = (List.range n).filter (fun j => !(bundles.any (fun b => bundle_nonempty b j))) :=
    compute_empty_columns_eq n bundles
  have hp : (compute_empty_columns n bundles).Pairwise (· < ·) := by
    rw [hE]
    exact (List.pairwise_lt_range n).filter _
  have hgen : ∀ (l : List String), l.length = n →
      remove_empty_columns l (compute_empty_columns n bundles)
        = ((List.range n).filter (fun j => bundles.any (fun b => bundle_nonempty b j))).map
            (fun j => l.getD j "") := by
    intro l hl
    rw [remove_empty_columns, sort_nats_of_pairwise _ hp]
    rw [remove_sorted_eq_sieve _ _ _ hp (by
      intro i hi
      rw [hE] at hi
      have := (List.mem_filter.mp hi).1
      rw [List.mem_range] at this
      omega)]
    rw [sieve_eq_filter_map _ "" l 0]
    rw [hl, ← List.range_eq_range']
    have hfeq : ((List.range n).filter (fun j => j ∉ compute_empty_columns n bundles))
        = (List.range n).filter (fun j => bundles.any (fun b => bundle_nonempty b j)) := by
      refine List.filter_congr ?_
      intro j hj
      rw [hE]
      simp only [List.mem_filter, hj, true_and, decide_eq_true_eq]
      cases hb : bundles.any (fun b => bundle_nonempty b j) <;> simp
    rw [hfeq]
    refine List.map_congr_left ?_
    intro j _
    rw [Nat.sub_zero]
  exact ⟨hgen hdrs hlen, fun row hrow => hgen row hrow⟩

/-- Witness for `C2_empty_column_pruning`: three configured columns, two
bundles with one row each; column 1 is empty in every row and is pruned
from the headers and both rows, columns 0 and 2 (each non-empty in some
row) are kept in order. -/
theorem C2_witness :
    remove_empty_columns ["H0", "H1", "H2"]
        (compute_empty_columns 3 [[["a", "", ""]], [["", "", "c"]]])
      = ["H0", "H2"]
    ∧ remove_empty_columns ["a", "", ""]
        (compute_empty_columns 3 [[["a", "", ""]], [["", "", "c"]]])
      = ["a", ""] := by
  have h := C2_empty_column_pruning 3 [[["a", "", ""]], [["", "", "c"]]] ["H0", "H1", "H2"]
    rfl
  refine ⟨?_, ?_⟩
  · rw [h.1]
    rfl
  · rw [h.2 ["a", "", ""] rfl]
    rfl

/-! ## Claim C5: protocol-column expansion -/

/-- Inserting at the junction of an append puts the element between the
parts. -/
theorem insertIdx_append_cons {α : Type} (l1 l2 : List α) (v : α) (n : Nat)
    (h : n = l1.length) : List.insertIdx n v (l1 ++ l2) = l1 ++ v :: l2 := by
  subst h
  induction l1 with
  | nil => rfl
  | cons a t ih => simpa [List.insertIdx_succ_cons] using ih

/-- Setting the cell at the junction of an append replaces the head of
the right part. -/
theorem set_append_cons {α : Type} (l1 l2 : List α) (a b : α) (n : Nat)
    (h : n = l1.length) : (l1 ++ a :: l2).set n b = l1 ++ b :: l2 := by
  subst h
  induction l1 with
  | nil => rfl
  | cons x t ih => simp [ih]

/-- Reading the cell at the junction of an append gives the head of the
right part. -/
theorem getD_append_cons {α : Type} (l1 l2 : List α) (a d : α) (n : Nat)
    (h : n = l1.length) : (l1 ++ a :: l2).getD n d = a := by
  subst h
  induction l1 with
  | nil => rfl
  | cons x t ih => simpa using ih

/-- Inserting into a non-empty list cannot empty it. -/
theorem insertIdx_ne_nil {α : Type} (a : α) (t : List α) (i : Nat) (v : α) :
    List.insertIdx i v (a :: t) ≠ [] := by
  cases i with
  | zero => simp
  | succ j => simp [List.insertIdx_succ_cons]

/-- The while loop with an exhausted countdown. -/
theorem expand_while_zero (row : Option (List String)) (headers values : List String)
    (col : Nat) : expand_while 0 row headers values col = (row, headers, values, col) := rfl

/-- One while-loop iteration, unfolded. -/
theorem expand_while_succ (k : Nat) (row : Option (List String))
    (headers values : List String) (col : Nat) :
    expand_while (k + 1) row headers values col
      = if row_truthy row then
          match values with
          | [] => expand_while k row headers [] (col + 1)
          | v :: vs => expand_while k (row.map (List.insertIdx col v)) headers vs (col + 1)
        else expand_while k row (headers.insertIdx col "Protocol REF") values (col + 1) :=
  rfl

/-- A row-mode iteration with values left inserts the next value. -/
theorem expand_while_succ_cons (k : Nat) (row : Option (List String))
    (headers : List String) (v : String) (vs : List String) (col : Nat)
    (h : row_truthy row = true) :
    expand_while (k + 1) row headers (v :: vs) col
      = expand_while k (row.map (List.insertIdx col v)) headers vs (col + 1) := by
  rw [expand_while_succ, if_pos h]

/-- A row-mode iteration with no values left only advances the column. -/
theorem expand_while_succ_nil (k : Nat) (row : Option (List String))
    (headers : List String) (col : Nat) (h : row_truthy row = true) :
    expand_while (k + 1) row headers [] col = expand_while k row headers [] (col + 1) := by
  rw [expand_while_succ, if_pos h]

/-- In row mode (a present, non-empty row), the while loop never touches
the headers and the row stays non-empty. -/
theorem expand_while_truthy (k : Nat) (row : Option (List String))
    (headers values : List String) (col : Nat) (h : row_truthy row = true) :
    (expand_while k row headers values col).2.1 = headers
    ∧ row_truthy (expand_while k row headers values col).1 = true := by
  induction k generalizing row values col with
  | zero => exact ⟨rfl, h⟩
  | succ k ih =>
    cases values with
    | nil =>
      rw [expand_while_succ_nil k row headers col h]
      exact ih row [] (col + 1) h
    | cons v vs =>
      rw [expand_while_succ_cons k row headers v vs col h]
      refine ih _ vs (col + 1) ?_
      cases row with
      | none => simp [row_truthy] at h
      | some l =>
        cases l with
        | nil => simp [row_truthy] at h
        | cons a t =>
          simpa [row_truthy] using insertIdx_ne_nil a t col v

/-- Setting a cell of a non-empty list keeps it non-empty. -/
theorem set_ne_nil {α : Type} (a : α) (t : List α) (c : Nat) (v : α) :
    (a :: t).set c v ≠ [] := by
  cases c <;> simp

/-- The final write keeps a non-empty row non-empty. -/
theorem row_truthy_final_write (row1 : Option (List String)) (values1 : List String)
    (col1 : Nat) (h : row_truthy row1 = true) :
    row_truthy (final_protocol_write row1 values1 col1) = true := by
  unfold final_protocol_write
  rw [if_pos h]
  cases row1 with
  | none => simp [row_truthy] at h
  | some l =>
    cases l with
    | nil => simp [row_truthy] at h
    | cons a t =>
      cases values1 with
      | nil => simp [row_truthy, set_ne_nil a t col1]
      | cons v vs => simp [row_truthy, set_ne_nil a t col1]

/-- `expand_step` at a `'Protocol REF'` header, unfolded. -/
theorem expand_step_pr (counts : List (String × Nat)) (ptypes : List String)
    (st : ExpandState) :
    expand_step counts ptypes st "Protocol REF"
      = { row := final_protocol_write
            (expand_while ((counts.lookup (ptypes.getD st.protocol_type_idx "")).getD 0 - 1)
              st.row st.headers
              (if row_truthy st.row then
                str_split ((st.row.getD []).getD st.col_idx "") "," else [])
              st.col_idx).1
            (expand_while ((counts.lookup (ptypes.getD st.protocol_type_idx "")).getD 0 - 1)
              st.row st.headers
              (if row_truthy st.row then
                str_split ((st.row.getD []).getD st.col_idx "") "," else [])
              st.col_idx).2.2.1
            (expand_while ((counts.lookup (ptypes.getD st.protocol_type_idx "")).getD 0 - 1)
              st.row st.headers
              (if row_truthy st.row then
                str_split ((st.row.getD []).getD st.col_idx "") "," else [])
              st.col_idx).2.2.2,
          headers := (expand_while
              ((counts.lookup (ptypes.getD st.protocol_type_idx "")).getD 0 - 1)
              st.row st.headers
              (if row_truthy st.row then
                str_split ((st.row.getD []).getD st.col_idx "") "," else [])
              st.col_idx).2.1,
          col_idx := (expand_while
              ((counts.lookup (ptypes.getD st.protocol_type_idx "")).getD 0 - 1)
              st.row st.headers
              (if row_truthy st.row then
                str_split ((st.row.getD []).getD st.col_idx "") "," else [])
              st.col_idx).2.2.2 + 1,
          protocol_type_idx := st.protocol_type_idx + 1 } := rfl

/-- `expand_step` at any other header only advances the column index. -/
theorem expand_step_not_pr (counts : List (String × Nat)) (ptypes : List String)
    (st : ExpandState) (header : String) (h : ¬ header = "Protocol REF") :
    expand_step counts ptypes st header = { st with col_idx := st.col_idx + 1 } := by
  unfold expand_step
  rw [if_neg h]

/-- In row mode, one loop iteration keeps the headers and the row's
non-emptiness. -/
theorem expand_step_truthy (counts : List (String × Nat)) (ptypes : List String)
    (st : ExpandState) (header : String) (htr : row_truthy st.row = true) :
    (expand_step counts ptypes st header).headers = st.headers
    ∧ row_truthy (expand_step counts ptypes st header).row = true := by
  by_cases hh : header = "Protocol REF"
  · subst hh
    rw [expand_step_pr]
    have hew := expand_while_truthy
      ((counts.lookup (ptypes.getD st.protocol_type_idx "")).getD 0 - 1) st.row st.headers
      (if row_truthy st.row then
        str_split ((st.row.getD []).getD st.col_idx "") "," else [])
      st.col_idx htr
    exact ⟨hew.1, row_truthy_final_write _ _ _ hew.2⟩
  · rw [expand_step_not_pr counts ptypes st header hh]
    exact ⟨rfl, htr⟩

/-- In row mode, the whole expansion pass leaves the headers unchanged. -/
theorem foldl_expand_truthy (counts : List (String × Nat)) (ptypes : List String)
    (hl : List String) (st : ExpandState) (htr : row_truthy st.row = true) :
    (hl.foldl (expand_step counts ptypes) st).headers = st.headers
    ∧ row_truthy (hl.foldl (expand_step counts ptypes) st).row = true := by
  induction hl generalizing st with
  | nil => exact ⟨rfl, htr⟩
  | cons h t ih =>
    rw [List.foldl_cons]
    have hstep := expand_step_truthy counts ptypes st h htr
    have := ih (expand_step counts ptypes st h) hstep.2
    exact ⟨this.1.trans hstep.1, this.2⟩

/-- Folding over headers that are not `'Protocol REF'` only advances the
column index. -/
theorem foldl_expand_non_pr (counts : List (String × Nat)) (ptypes : List String)
    (hl : List String) (hnp : "Protocol REF" ∉ hl) (st : ExpandState) :
    hl.foldl (expand_step counts ptypes) st
      = ⟨st.row, st.headers, st.col_idx + hl.length, st.protocol_type_idx⟩ := by
  induction hl generalizing st with
  | nil => simp
  | cons h t ih =>
    simp only [List.mem_cons, not_or] at hnp
    rw [List.foldl_cons, expand_step_not_pr counts ptypes st h (fun he => hnp.1 he.symm)]
    rw [ih hnp.2]
    simp only [List.length_cons]
    congr 1
    omega

/-- Claim C5, as far as the code supports it: (a) expanding a data row
never touches the headers; (b) a max count of 1 leaves the headers
unchanged; (c) a max count of 1 leaves the row unchanged at the
placeholder provided the cell holds at most one comma-separated value
(a multi-valued cell is truncated to its first value — see the
counterexample); (d) max count 3 over a placeholder cell `"A,B"` yields
the three columns `"A"`, `"B"`, `""` in order, values distributed left
to right and the rest padded with the empty string. -/
theorem C5_protocol_expansion (t : String) (pre post : List String)
    (hpre : "Protocol REF" ∉ pre) (hpost : "Protocol REF" ∉ post) :
    (∀ (row headers : List String) (counts : List (String × Nat)), row ≠ [] →
      (expand_protocol_columns (some row) headers counts).2 = headers)
    ∧ expand_protocol_columns none (pre ++ "Protocol REF" :: post) [(t, 1)]
        = (none, pre ++ "Protocol REF" :: post)
    ∧ (∀ (rpre rpost : List String) (cell : String), rpre.length = pre.length →
        str_split cell "," = [cell] →
        expand_protocol_columns (some (rpre ++ cell :: rpost))
            (pre ++ "Protocol REF" :: post) [(t, 1)]
          = (some (rpre ++ cell :: rpost), pre ++ "Protocol REF" :: post))
    ∧ (∀ (rpre rpost : List String), rpre.length = pre.length →
        expand_protocol_columns (some (rpre ++ "A,B" :: rpost))
            (pre ++ "Protocol REF" :: post) [(t, 3)]
          = (some (rpre ++ "A" :: "B" :: "" :: rpost), pre ++ "Protocol REF" :: post)) := by
  have hlkt : (([(t, 1)].lookup (([t] : List String).getD 0 "")).getD 0) = 1 := by
    show ([(t, 1)].lookup t).getD 0 = 1
    rw [lookup_cons_pair, if_pos rfl]
    rfl
  have hlkt3 : (([(t, 3)].lookup (([t] : List String).getD 0 "")).getD 0) = 3 := by
    show ([(t, 3)].lookup t).getD 0 = 3
    rw [lookup_cons_pair, if_pos rfl]
    rfl
  refine ⟨fun row headers counts hne => ?_, ?_, fun rpre rpost cell hlen hsplit => ?_,
    fun rpre rpost hlen => ?_⟩
  · unfold expand_protocol_columns
    exact (foldl_expand_truthy counts (counts.map Prod.fst) headers
      ⟨some row, headers, 0, 0⟩ (by simpa [row_truthy] using hne)).1
  · show ((List.foldl (expand_step [(t, 1)] [t])
        ⟨none, pre ++ "Protocol REF" :: post, 0, 0⟩ (pre ++ "Protocol REF" :: post)).row,
      (List.foldl (expand_step [(t, 1)] [t])
        ⟨none, pre ++ "Protocol REF" :: post, 0, 0⟩ (pre ++ "Protocol REF" :: post)).headers)
      = (none, pre ++ "Protocol REF" :: post)
    rw [List.foldl_append, foldl_expand_non_pr _ _ pre hpre _, List.foldl_cons]
    have hstep : expand_step [(t, 1)] [t]
        (⟨none, pre ++ "Protocol REF" :: post, 0 + pre.length, 0⟩ : ExpandState)
          "Protocol REF"
        = ⟨none, pre ++ "Protocol REF" :: post, 0 + pre.length + 1, 0 + 1⟩ := by
      rw [expand_step_pr]
      simp only [hlkt]
      rw [show (if row_truthy (none : Option (List String)) then
          str_split (((none : Option (List String)).getD []).getD (0 + pre.length) "") ","
          else []) = [] from rfl]
      rw [show expand_while (1 - 1) none (pre ++ "Protocol REF" :: post) [] (0 + pre.length)
          = (none, pre ++ "Protocol REF" :: post, [], 0 + pre.length) from rfl]
      rfl
    rw [hstep, foldl_expand_non_pr _ _ post hpost _]
  · show ((List.foldl (expand_step [(t, 1)] [t])
        ⟨some (rpre ++ cell :: rpost), pre ++ "Protocol REF" :: post, 0, 0⟩
        (pre ++ "Protocol REF" :: post)).row,
      (List.foldl (expand_step [(t, 1)] [t])
        ⟨some (rpre ++ cell :: rpost), pre ++ "Protocol REF" :: post, 0, 0⟩
        (pre ++ "Protocol REF" :: post)).headers)
      = (some (rpre ++ cell :: rpost), pre ++ "Protocol REF" :: post)
    rw [List.foldl_append, foldl_expand_non_pr _ _ pre hpre _, List.foldl_cons]
    have htr : row_truthy (some (rpre ++ cell :: rpost)) = true := by
      simp [row_truthy]
    have hval : (if row_truthy (some (rpre ++ cell :: rpost)) then
        str_split (((some (rpre ++ cell :: rpost)).getD []).getD (0 + pre.length) "") ","
        else []) = [cell] := by
      rw [if_pos htr]
      show str_split ((rpre ++ cell :: rpost).getD (0 + pre.length) "") "," = [cell]
      rw [getD_append_cons rpre rpost cell "" (0 + pre.length) (by omega), hsplit]
    have hstep : expand_step [(t, 1)] [t]
        (⟨some (rpre ++ cell :: rpost), pre ++ "Protocol REF" :: post,
          0 + pre.length, 0⟩ : ExpandState) "Protocol REF"
        = ⟨some (rpre ++ cell :: rpost), pre ++ "Protocol REF" :: post,
            0 + pre.length + 1, 0 + 1⟩ := by
      rw [expand_step_pr]
      simp only [hlkt, hval]
      rw [show expand_while (1 - 1) (some (rpre ++ cell :: rpost))
          (pre ++ "Protocol REF" :: post) [cell] (0 + pre.length)
          = (some (rpre ++ cell :: rpost), pre ++ "Protocol REF" :: post, [cell],
              0 + pre.length) from rfl]
      show (⟨final_protocol_write (some (rpre ++ cell :: rpost)) [cell] (0 + pre.length),
          pre ++ "Protocol REF" :: post, 0 + pre.length + 1, 0 + 1⟩ : ExpandState) = _
      unfold final_protocol_write
      rw [if_pos htr]
      show (⟨some ((rpre ++ cell :: rpost).set (0 + pre.length) cell),
          pre ++ "Protocol REF" :: post, 0 + pre.length + 1, 0 + 1⟩ : ExpandState) = _
      rw [set_append_cons rpre rpost cell cell (0 + pre.length) (by omega)]
    rw [hstep, foldl_expand_non_pr _ _ post hpost _]
  · show ((List.foldl (expand_step [(t, 3)] [t])
        ⟨some (rpre ++ "A,B" :: rpost), pre ++ "Protocol REF" :: post, 0, 0⟩
        (pre ++ "Protocol REF" :: post)).row,
      (List.foldl (expand_step [(t, 3)] [t])
        ⟨some (rpre ++ "A,B" :: rpost), pre ++ "Protocol REF" :: post, 0, 0⟩
        (pre ++ "Protocol REF" :: post)).headers)
      = (some (rpre ++ "A" :: "B" :: "" :: rpost), pre ++ "Protocol REF" :: post)
    rw [List.foldl_append, foldl_expand_non_pr _ _ pre hpre _, List.foldl_cons]
    have htr : row_truthy (some (rpre ++ "A,B" :: rpost)) = true := by
      simp [row_truthy]
    have htr2 : row_truthy (some (rpre ++ "A" :: "A,B" :: rpost)) = true := by
      simp [row_truthy]
    have hA : List.insertIdx (0 + pre.length) "A" (rpre ++ "A,B" :: rpost)
        = rpre ++ "A" :: "A,B" :: rpost :=
      insertIdx_append_cons rpre ("A,B" :: rpost) "A" _ (by omega)
    have hB : List.insertIdx (0 + pre.length + 1) "B" (rpre ++ "A" :: "A,B" :: rpost)
        = rpre ++ "A" :: "B" :: "A,B" :: rpost := by
      have h := insertIdx_append_cons (rpre ++ ["A"]) ("A,B" :: rpost) "B"
        (0 + pre.length + 1) (by simp [hlen])
      simpa using h
    have hset : (rpre ++ "A" :: "B" :: "A,B" :: rpost).set (0 + pre.length + 1 + 1) ""
        = rpre ++ "A" :: "B" :: "" :: rpost := by
      have h := set_append_cons (rpre ++ ["A", "B"]) rpost "A,B" ""
        (0 + pre.length + 1 + 1) (by simp [hlen])
      simpa using h
    have hval : (if row_truthy (some (rpre ++ "A,B" :: rpost)) then
        str_split (((some (rpre ++ "A,B" :: rpost)).getD []).getD (0 + pre.length) "") ","
        else []) = ["A", "B"] := by
      rw [if_pos htr]
      show str_split ((rpre ++ "A,B" :: rpost).getD (0 + pre.length) "") "," = ["A", "B"]
      rw [getD_append_cons rpre rpost "A,B" "" (0 + pre.length) (by omega)]
      rfl
    have hEW : expand_while (3 - 1) (some (rpre ++ "A,B" :: rpost))
        (pre ++ "Protocol REF" :: post) ["A", "B"] (0 + pre.length)
        = (some (rpre ++ "A" :: "B" :: "A,B" :: rpost), pre ++ "Protocol REF" :: post, [],
            0 + pre.length + 1 + 1) := by
      refine Eq.trans (expand_while_succ_cons 1 (some (rpre ++ "A,B" :: rpost))
        (pre ++ "Protocol REF" :: post) "A" ["B"] (0 + pre.length) htr) ?_
      rw [show (some (rpre ++ "A,B" :: rpost)).map (List.insertIdx (0 + pre.length) "A")
          = some (List.insertIdx (0 + pre.length) "A" (rpre ++ "A,B" :: rpost)) from rfl,
        hA]
      refine Eq.trans (expand_while_succ_cons 0 (some (rpre ++ "A" :: "A,B" :: rpost))
        (pre ++ "Protocol REF" :: post) "B" [] (0 + pre.length + 1) htr2) ?_
      rw [show (some (rpre ++ "A" :: "A,B" :: rpost)).map
            (List.insertIdx (0 + pre.length + 1) "B")
          = some (List.insertIdx (0 + pre.length + 1) "B" (rpre ++ "A" :: "A,B" :: rpost))
          from rfl, hB]
      exact expand_while_zero _ _ _ _
    have hstep : expand_step [(t, 3)] [t]
        (⟨some (rpre ++ "A,B" :: rpost), pre ++ "Protocol REF" :: post,
          0 + pre.length, 0⟩ : ExpandState) "Protocol REF"
        = ⟨some (rpre ++ "A" :: "B" :: "" :: rpost), pre ++ "Protocol REF" :: post,
            0 + pre.length + 1 + 1 + 1, 0 + 1⟩ := by
      rw [expand_step_pr]
      simp only [hlkt3, hval]
      rw [hEW]
      show (⟨final_protocol_write (some (rpre ++ "A" :: "B" :: "A,B" :: rpost)) []
          (0 + pre.length + 1 + 1), pre ++ "Protocol REF" :: post,
          0 + pre.length + 1 + 1 + 1, 0 + 1⟩ : ExpandState) = _
      unfold final_protocol_write
      rw [if_pos (by simp [row_truthy])]
      show (⟨some ((rpre ++ "A" :: "B" :: "A,B" :: rpost).set (0 + pre.length + 1 + 1) ""),
          pre ++ "Protocol REF" :: post, 0 + pre.length + 1 + 1 + 1, 0 + 1⟩ : ExpandState)
        = _
      rw [hset]
    rw [hstep, foldl_expand_non_pr _ _ post hpost _]
/-- Claim C5 as stated is false in its max-count-1 half: expanding the
single placeholder row `["A,B"]` with max count 1 truncates the cell to
its first comma-separated value `"A"` (the final write always replaces
the cell with the head of the remaining values), so the row is not left
unchanged at that position. -/
theorem C5_counterexample :
    expand_protocol_columns (some ["A,B"]) ["Protocol REF"] [("t", 1)]
      = (some ["A"], ["Protocol REF"])
    ∧ (some ["A"] : Option (List String)) ≠ some ["A,B"] := by
  refine ⟨rfl, fun h => ?_⟩
  simp only [Option.some.injEq, List.cons.injEq] at h
  exact absurd h.1 (by decide)

/-- Witness for `C5_protocol_expansion` with concrete one-column
surroundings: headers `[H, Protocol REF]`, rows `[x, P1]` (max 1,
unchanged) and `[x, A,B]` (max 3, distributed and padded). -/
theorem C5_witness :
    expand_protocol_columns (some ["x", "P1"]) ["H", "Protocol REF"] [("t", 1)]
      = (some ["x", "P1"], ["H", "Protocol REF"])
    ∧ expand_protocol_columns (some ["x", "A,B"]) ["H", "Protocol REF"] [("t", 3)]
      = (some ["x", "A", "B", ""], ["H", "Protocol REF"])
    ∧ expand_protocol_columns none ["H", "Protocol REF"] [("t", 1)]
      = (none, ["H", "Protocol REF"]) := by
  have h := C5_protocol_expansion "t" ["H"] [] (by decide) (by decide)
  refine ⟨?_, ?_, ?_⟩
  · have := h.2.2.1 ["x"] [] "P1" rfl rfl
    simpa using this
  · have := h.2.2.2 ["x"] [] rfl
    simpa using this
  · have := h.2.1
    simpa using this

end Hca2Mtab
